import Mathlib

/-!
Verification of the Pydu live disk-usage analyzer (`src/Pydu/pydu.py`).

Modelling conventions:
* An absolute filesystem path is a list of name components; `[]` is the
  filesystem root `"/"`.  `os.path.dirname` is `List.dropLast`
  (`dirname "/" = "/"` matches `dropLast [] = []`), and
  `os.path.join p n` is `p ++ [n]`.
* The filesystem itself is modelled by the data the program consumes: the
  output of `os.walk`, a list of entries `(dirpath, dirnames, filenames)`.
  Each filename carries `Option Nat`: `some sz` if `os.path.getsize`
  succeeds with size `sz`, `none` if it raises.  Both traversal passes see
  the same walk list (the filesystem is not mutated during a scan).
* The shared `State` object is a record; its dicts become total functions
  into `Option` (a missing key is `none`; `defaultdict` reads through `[]`
  treat `none` as the default), its `exists` set a boolean predicate.
* The scanner's observable states are the states between `with st.lock:`
  blocks; the whole scan is the sequence of those atomic blocks, with the
  completion order of the sizing tasks an arbitrary permutation of the
  submitted tasks.  Worker-side error increments are accounted at the
  completion-drain block of the failing task; no claim observes the error
  counter between submission and drain.
* Python floats are modelled by rationals.  `start_time` and wall-clock
  derived quantities (elapsed, rate, ETA) are not modelled; no claim
  mentions them.
-/

namespace Pydu

/-- A filesystem path, as its list of name components below `"/"`. -/
abbrev Path := List String

/-- `under a b`: `a` is an initial segment of `b`, i.e. `b` denotes a file
or directory lying at or under directory `a`. -/
def under (a b : Path) : Prop := b.take a.length = a

instance (a b : Path) : Decidable (under a b) := by unfold under; infer_instance

/-- The `while True` loop of `ancestors` with its variant made explicit:
each iteration strictly shortens the path, so `path.length` steps always
suffice (the fuel-0 case is reached only at `[]`, where the loop would
stop anyway). -/
def ancestorsAux : ℕ → Path → Path → List Path
  | 0, path, _ => [path]
  | fuel + 1, path, stop_at =>
    path :: (if path = stop_at ∨ path.dropLast = path then []
             else ancestorsAux fuel path.dropLast stop_at)

/-- `ancestors path stop_at` (pydu.py:32-42): all ancestor directories from
`path` up to and including `stop_at` (the scan root), walking with
`os.path.dirname` and stopping at `stop_at` or at the fixpoint of
`dirname` (the filesystem root).  `os.path.abspath` is the identity on
our already-absolute paths. -/
def ancestors (path stop_at : Path) : List Path :=
  ancestorsAux path.length path stop_at

/-!  ## The size formatter `human` (pydu.py:21-30)

Every division the formatter performs is by 1024, and the values exercised
by the spec are exact in binary floating point, so the rational model
agrees with the float computation there.  `f"{n:.1f}"` rounds to one
decimal digit, half to even, which `rhe` reproduces for exact ties. -/

/-- Round half to even at integer precision (the rounding of Python float
formatting, exact at the values exercised here). -/
def rhe (q : ℚ) : ℤ :=
  if q - ⌊q⌋ = 1 / 2 then (if ⌊q⌋ % 2 = 0 then ⌊q⌋ else ⌊q⌋ + 1) else round q

/-- `f"{n:.1f}"` for a nonnegative rational: exactly one decimal digit. -/
def fmt1 (q : ℚ) : String :=
  let t : ℤ := rhe (q * 10)
  toString (t / 10) ++ "." ++ toString (t % 10)

/-- The unit suffixes walked by the formatter's loop; `"E"` is reached only
after the list is exhausted. -/
def humanUnits : List String := ["B", "K", "M", "G", "T", "P"]

/-- The `for unit in [...]` loop of `human`: divide by 1024 while the
magnitude is at least 1024 and units remain. -/
def humanLoop (q : ℚ) : List String → String
  | [] => fmt1 q ++ "E"
  | u :: us => if q < 1024 then fmt1 q ++ u else humanLoop (q / 1024) us

/-- `human` (pydu.py:21-30).  The argument is `some q` when `float(n)`
succeeds with value `q`, and `none` when the conversion raises; in the
latter case the `except` branch returns the marker `"?"`. -/
def human : Option ℚ → String
  | none => "?"
  | some q => humanLoop q humanUnits

/-!  ## Shared scan state (class `State`, pydu.py:48-65) -/

/-- One `os.walk` entry: `(dirpath, dirnames, filenames)`, each filename
paired with the outcome of `os.path.getsize` on it. -/
abbrev Entry := Path × List String × List (String × Option ℕ)

/-- A sizing task submitted to the worker pool: the file path and the
outcome of its size read. -/
abbrev Task := Path × Option ℕ

/-- The progress counters of `State` (pydu.py:59-65). -/
structure Prog where
  total_files : ℕ
  seen_files : ℕ
  total_dirs : ℕ
  seen_dirs : ℕ
  errors : ℕ
  scanning : Bool
deriving DecidableEq

/-- The shared `State` (pydu.py:48-65).  `size`, `children`, `is_dir` are
dicts keyed by path (`none` = key absent); `exists'` is the `exists` set
(renamed: `exists` is a Lean keyword); `root` is the resolved scan root. -/
structure St where
  root : Path
  size : Path → Option ℕ
  exists' : Path → Bool
  children : Path → List Path
  is_dir : Path → Option Bool
  prog : Prog

/-- Point update of a path-keyed map. -/
def upd {α : Type} (f : Path → α) (p : Path) (v : α) : Path → α :=
  fun q => if q = p then v else f q

/-- The freshly constructed `State(root)`: empty tables and
`total_files = total_dirs = 1`, `scanning = True` (pydu.py:49-65). -/
def initSt (r : Path) : St :=
  ⟨r, fun _ => none, fun _ => false, fun _ => [], fun _ => none, ⟨1, 0, 1, 0, 0, true⟩⟩

/-!  ## Scanner blocks

Each definition below is one `with st.lock:` block of `pre_count`
(pydu.py:71-87) or `scan_live` (pydu.py:88-131); the scan is their
sequential composition, with sizing-task completions interleaved in an
arbitrary order after submission. -/

/-- `pre_count` per-directory block (pydu.py:74-78): register the
directory, `children.setdefault` (a no-op on the total-function model of
`defaultdict(list)`), `total_dirs += 1`. -/
def pB1 (p : Path) (st : St) : St :=
  { st with exists' := upd st.exists' p true, is_dir := upd st.is_dir p (some true),
            prog := { st.prog with total_dirs := st.prog.total_dirs + 1 } }

/-- `pre_count` per-subdirectory block (pydu.py:79-84): register the child
directory and append it to the parent's children list. -/
def pB2 (p : Path) (d : String) (st : St) : St :=
  { st with exists' := upd st.exists' (p ++ [d]) true,
            is_dir := upd st.is_dir (p ++ [d]) (some true),
            children := upd st.children p (st.children p ++ [p ++ [d]]) }

/-- `pre_count` file-count block (pydu.py:85-86):
`total_files += len(filenames)`. -/
def pB3 (k : ℕ) (st : St) : St :=
  { st with prog := { st.prog with total_files := st.prog.total_files + k } }

/-- `scan_live` per-directory block (pydu.py:103-111): `seen_dirs += 1`,
re-register the directory, and append each listed subdirectory that is not
already among the children. -/
def lB4 (p : Path) (ds : List String) (st : St) : St :=
  let st1 := { st with prog := { st.prog with seen_dirs := st.prog.seen_dirs + 1 },
                       exists' := upd st.exists' p true,
                       is_dir := upd st.is_dir p (some true) }
  ds.foldl (fun s d =>
    if (p ++ [d]) ∈ s.children p then s
    else { s with children := upd s.children p (s.children p ++ [p ++ [d]]) }) st1

/-- `scan_live` per-file block (pydu.py:113-118): register the file and
append it (unconditionally) to its directory's children list. -/
def lB5 (p : Path) (n : String) (st : St) : St :=
  { st with exists' := upd st.exists' (p ++ [n]) true,
            is_dir := upd st.is_dir (p ++ [n]) (some false),
            children := upd st.children p (st.children p ++ [p ++ [n]]) }

/-- Add `v` to `size[a]` for each `a` in the list, in order (the `for anc
in ancestors(...)` loop of pydu.py:128-129, on `defaultdict(int)`). -/
def bubble (f : Path → Option ℕ) (l : List Path) (v : ℕ) : Path → Option ℕ :=
  l.foldl (fun g a => upd g a (some ((g a).getD 0 + v))) f

/-- Completion-drain block for one task (pydu.py:122-129): `seen_files +=
1`, `size[path] = sz`, and bubble `sz` to every ancestor of the file's
directory up to the scan root.  The worker-side `errors += 1` of a failed
read (pydu.py:95-98) is accounted here, at the completion of that task. -/
def dB (t : Task) (st : St) : St :=
  let v := t.2.getD 0
  let st1 := { st with
    prog := { st.prog with
      errors := st.prog.errors + (if t.2 = none then 1 else 0),
      seen_files := st.prog.seen_files + 1 },
    size := upd st.size t.1 (some v) }
  { st1 with size := bubble st1.size (ancestors t.1.dropLast st.root) v }

/-- The final block of `scan_live` (pydu.py:130-131): clear the scanning
flag. -/
def finB (st : St) : St :=
  { st with prog := { st.prog with scanning := false } }

/-- Apply a block to a state (fold/scan step function). -/
def app (st : St) (f : St → St) : St := f st

/-- The lock-blocks of `pre_count` for one walk entry, in program order. -/
def preBlocksOf (e : Entry) : List (St → St) :=
  pB1 e.1 :: (e.2.1.map (pB2 e.1) ++ [pB3 e.2.2.length])

/-- The lock-blocks of the live traversal for one walk entry, in program
order. -/
def liveBlocksOf (e : Entry) : List (St → St) :=
  lB4 e.1 e.2.1 :: e.2.2.map (fun nf => lB5 e.1 nf.1)

/-- The sizing tasks submitted while visiting one walk entry. -/
def tasksOf (e : Entry) : List Task :=
  e.2.2.map (fun nf => (e.1 ++ [nf.1], nf.2))

/-- All sizing tasks of a scan, in submission order. -/
def tasks (walk : List Entry) : List Task := walk.flatMap tasksOf

/-- All lock-blocks of one scan: the pre-count pass, the live pass, the
completion drain (in completion order `order`, any permutation of the
submitted tasks), and the final `scanning = False`. -/
def allBlocks (walk : List Entry) (order : List Task) : List (St → St) :=
  walk.flatMap preBlocksOf ++ walk.flatMap liveBlocksOf ++ order.map dB ++ [finB]

/-- Every observable state of a scan, in order: the states between lock
blocks, from the fresh `State` to the post-`Done` state. -/
def scanTrace (r : Path) (walk : List Entry) (order : List Task) : List St :=
  List.scanl app (initSt r) (allBlocks walk order)

/-- The state after the scan reached `Done`. -/
def scanFinal (r : Path) (walk : List Entry) (order : List Task) : St :=
  List.foldl app (initSt r) (allBlocks walk order)

/-- The state after the pre-count pass. -/
def preSt (r : Path) (walk : List Entry) : St :=
  List.foldl app (initSt r) (walk.flatMap preBlocksOf)

/-- The state after the live traversal (all tasks submitted, none yet
drained). -/
def liveSt (r : Path) (walk : List Entry) : St :=
  List.foldl app (preSt r walk) (walk.flatMap liveBlocksOf)

/-- Drain a list of task completions from a state. -/
def drainSteps (st : St) (l : List Task) : St :=
  List.foldl app st (l.map dB)

/-- The progress percentage computed by `Browser.draw` (pydu.py:186-188):
`100.0 * min(1.0, seen / max(1, tot))`. -/
def pct (st : St) : ℚ :=
  100 * min 1 (((st.prog.seen_files : ℚ) + (st.prog.seen_dirs : ℚ)) /
    max 1 ((st.prog.total_files : ℚ) + (st.prog.total_dirs : ℚ)))

/-- The contribution of one drained task to `size[q]`: its measured size
(0 on a failed read) if `q` is the file itself or an ancestor of its
directory up to the scan root, else 0. -/
def contrib (r : Path) (t : Task) (q : Path) : ℕ :=
  if q = t.1 ∨ q ∈ ancestors t.1.dropLast r then t.2.getD 0 else 0

/-- Well-formedness of an `os.walk` output over an unchanging filesystem
rooted at `r`: each directory is visited once, every path is under the
root, the names listed in one directory are distinct (a name is a file or
a directory, never both), every listed subdirectory is itself visited, and
every visited non-root directory is listed as a subdirectory of its
parent, which is also visited. -/
structure WalkWF (r : Path) (walk : List Entry) : Prop where
  entries_nodup : (walk.map (fun e => e.1)).Nodup
  rooted : ∀ e ∈ walk, under r e.1
  names_nodup : ∀ e ∈ walk, (e.2.1 ++ e.2.2.map (fun nf => nf.1)).Nodup
  closure : ∀ e ∈ walk, ∀ d ∈ e.2.1, (e.1 ++ [d]) ∈ walk.map (fun e => e.1)
  parent_link : ∀ e ∈ walk, e.1 ≠ r →
    ∃ e₂ ∈ walk, e₂.1 = e.1.dropLast ∧ e.1.getLastD "" ∈ e₂.2.1

/-- The immediate subdirectory paths listed by one walk entry. -/
def dirKidsOf (e : Entry) : List Path := e.2.1.map (fun d => e.1 ++ [d])

/-- The file paths listed by one walk entry. -/
def fileKidsOf (e : Entry) : List Path := e.2.2.map (fun nf => e.1 ++ [nf.1])

/-- The directory paths of a walk (visited directories). -/
def dirsOf (walk : List Entry) : List Path := walk.map (fun e => e.1)

/-- Every path registered in `exists` during a scan of `walk`. -/
def allP (walk : List Entry) : List Path :=
  walk.flatMap (fun e => e.1 :: (dirKidsOf e ++ fileKidsOf e))

/-!  ## The interactive browser (class `Browser`, pydu.py:137-298) -/

/-- The browser's mutable fields (pydu.py:138-143): current directory,
selection index, sort mode (`0` size-descending, `1` name-ascending,
`2` type-then-size). -/
structure BrowserSt where
  cwd : Path
  pos : ℕ
  sort_mode : ℕ
deriving DecidableEq

/-- `Browser.__init__` (pydu.py:138-143): start at the scan root with
selection 0 and sort mode 0. -/
def browserInit (st : St) : BrowserSt := ⟨st.root, 0, 0⟩

/-- Code-point comparison of character lists: Python's `<` on strings. -/
def charListLt : List Char → List Char → Bool
  | [], [] => false
  | [], _ :: _ => true
  | _ :: _, [] => false
  | c :: cs, d :: ds => if c < d then true else if d < c then false else charListLt cs ds

/-- Python string `<` (lexicographic on code points). -/
def strLt (s t : String) : Bool := charListLt s.data t.data

/-- Python string `≤`. -/
def strLe (s t : String) : Bool := !(strLt t s)

/-- `False < True` (Python bool ordering inside sort keys). -/
def boolLt (a b : Bool) : Bool := !a && b

/-- `os.path.basename(p).lower()` on component paths: the last component,
lower-cased (`basename "/" = ""`). -/
def baseLower (p : Path) : String := (p.getLastD "").toLower

/-- Lexicographic `≤` on a mode-1 sort key `(not is_dir, name.lower())`. -/
def le2 (a b : Bool × String) : Bool :=
  boolLt a.1 b.1 || (a.1 == b.1 && strLe a.2 b.2)

/-- Lexicographic `≤` on a mode-0/2 sort key
`(not is_dir, -size, name.lower())`. -/
def le3 (a b : Bool × ℤ × String) : Bool :=
  boolLt a.1 b.1 ||
    (a.1 == b.1 && (decide (a.2.1 < b.2.1) || (a.2.1 == b.2.1 && strLe a.2.2 b.2.2)))

/-- Stable insertion: place `x` before the first element not strictly
below it (earlier-listed elements keep their place among equals, as in
Python's stable `list.sort`). -/
def insStable {α : Type} (le : α → α → Bool) (x : α) : List α → List α
  | [] => [x]
  | y :: ys => if le y x && !(le x y) then y :: insStable le x ys else x :: y :: ys

/-- A stable sort by a total preorder, modelling Python's `list.sort`. -/
def pySort {α : Type} (le : α → α → Bool) (l : List α) : List α :=
  l.foldr (insStable le) []

/-- `Browser._sorted_children` (pydu.py:159-175): snapshot the children of
`path`, hide entries missing from `exists`, snapshot sizes (a missing size
falls back to the parent's size for directories, 0 for files), and sort by
the active mode's key. -/
def sortedChildren (st : St) (mode : ℕ) (path : Path) : List Path :=
  let kids := (st.children path).filter (fun k => st.exists' k)
  let sizes := fun k =>
    (st.size k).getD (if (st.is_dir k).getD false then (st.size path).getD 0 else 0)
  let isd := fun k => (st.is_dir k).getD false
  if mode = 1 then
    pySort (fun p q => le2 (!(isd p), baseLower p) (!(isd q), baseLower q)) kids
  else if mode = 2 then
    pySort (fun p q =>
      le3 (!(isd p), -(sizes p : ℤ), baseLower p) (!(isd q), -(sizes q : ℤ), baseLower q))
      kids
  else
    pySort (fun p q =>
      le3 (!(isd p), -(sizes p : ℤ), baseLower p) (!(isd q), -(sizes q : ℤ), baseLower q))
      kids

/-- `KEY_UP` handler (pydu.py:278-279): `pos = max(0, pos - 1)` (truncated
subtraction on `ℕ`). -/
def keyUp (b : BrowserSt) : BrowserSt := { b with pos := b.pos - 1 }

/-- `KEY_DOWN` handler (pydu.py:280-281): `pos = pos + 1`, with no clamp. -/
def keyDown (b : BrowserSt) : BrowserSt := { b with pos := b.pos + 1 }

/-- Sort-cycling handler (pydu.py:297-298). -/
def keyCycleSort (b : BrowserSt) : BrowserSt :=
  { b with sort_mode := (b.sort_mode + 1) % 3 }

/-- The clamp `draw` applies to the selection when the child list is
nonempty (pydu.py:226-228): `pos = max(0, min(pos, len(kids) - 1))`. -/
def drawClamp (st : St) (b : BrowserSt) : BrowserSt :=
  let kids := sortedChildren st b.sort_mode b.cwd
  if kids = [] then b else { b with pos := min b.pos (kids.length - 1) }

/-- `KEY_RIGHT`/Enter handler (pydu.py:282-291): on a nonempty child list,
clamp the selection, and if the selected child is a directory move into it
and reset the selection. -/
def keyDescend (st : St) (b : BrowserSt) : BrowserSt :=
  let kids := sortedChildren st b.sort_mode b.cwd
  if kids = [] then b
  else
    let p := min b.pos (kids.length - 1)
    let sel := kids.getD p []
    if (st.is_dir sel).getD false then ⟨sel, 0, b.sort_mode⟩
    else { b with pos := p }

/-- `KEY_LEFT` handler (pydu.py:292-296): move to `dirname(cwd)` if it is
in the `exists` set, resetting the selection.  (The Python guard `parent
and ...` never fails: `os.path.dirname` of an absolute path is a nonempty
string.) -/
def keyAscend (st : St) (b : BrowserSt) : BrowserSt :=
  let parent := b.cwd.dropLast
  if st.exists' parent then ⟨parent, 0, b.sort_mode⟩ else b

/-- The navigation invariant of claim C10: the browser's current directory
is the scan root or a path recorded in `exists` and marked as a
directory. -/
def InTree (st : St) (b : BrowserSt) : Prop :=
  b.cwd = st.root ∨ (st.exists' b.cwd = true ∧ st.is_dir b.cwd = some true)

instance (st : St) (b : BrowserSt) : Decidable (InTree st b) := by
  unfold InTree; infer_instance

/-- Consistency of the shared tables with the walk, maintained by every
lock block: the root never changes, `exists` holds only discovered paths,
`is_dir = True` only for visited directories, `is_dir = False` only for
listed files, and every path in `exists` has its `is_dir` entry set (each
block records both together). -/
def TablesOK (r : Path) (walk : List Entry) (st : St) : Prop :=
  st.root = r ∧
  (∀ q, st.exists' q = true → q ∈ allP walk) ∧
  (∀ q, st.is_dir q = some true → q ∈ dirsOf walk) ∧
  (∀ q, st.is_dir q = some false → q ∈ walk.flatMap fileKidsOf) ∧
  (∀ q, st.exists' q = true → st.is_dir q ≠ none)

/-- The scanner only ever adds to the `exists` set and never downgrades an
`is_dir = True` entry: the table-growth order between observable states. -/
def TableLe (s1 s2 : St) : Prop :=
  (∀ q, s1.exists' q = true → s2.exists' q = true) ∧
  (∀ q, s1.is_dir q = some true → s2.is_dir q = some true)

/-- The walk of the spec's end-to-end scenario: the root holds file `r`
(400 bytes) and subdirectory `A` with files `a1` (100), `a2` (200), `a3`
(300 bytes), scanned from the filesystem root. -/
def demoWalk : List Entry :=
  [([], ["A"], [("r", some 400)]),
   (["A"], [], [("a1", some 100), ("a2", some 200), ("a3", some 300)])]

/-- A one-entry walk of an empty root directory. -/
def emptyWalk : List Entry := [([], [], [])]

/-- The shared state after a completed scan of `demoWalk` (tasks drained
in submission order). -/
def demoSt : St := scanFinal [] demoWalk (tasks demoWalk)

/-- The shared state after a completed scan of `emptyWalk`. -/
def emptySt : St := scanFinal [] emptyWalk (tasks emptyWalk)

/-!  ## Theorems -/

theorem under_refl (a : Path) : under a a := by simp [under]

theorem under_len {a b : Path} (h : under a b) : a.length ≤ b.length := by
  have := congrArg List.length h
  simp at this
  omega

theorem under_trans {a b c : Path} (hab : under a b) (hbc : under b c) : under a c := by
  unfold under at *
  have hl : a.length ≤ b.length := by
    have := congrArg List.length hab
    simp at this
    omega
  calc c.take a.length = (c.take b.length).take a.length := by
        rw [List.take_take, Nat.min_eq_left hl]
    _ = a := by rw [hbc, hab]

theorem under_same_length {a b : Path} (h : under a b) (hl : a.length = b.length) :
    a = b := by
  unfold under at h
  rw [hl, List.take_length] at h
  exact h.symm

theorem under_antisymm {a b : Path} (hab : under a b) (hba : under b a) : a = b :=
  under_same_length hab (Nat.le_antisymm (under_len hab) (under_len hba))

theorem under_append (a t : Path) : under a (a ++ t) := by
  simp [under, List.take_append]

theorem under_iff_exists {a b : Path} : under a b ↔ ∃ t, b = a ++ t := by
  constructor
  · intro h
    exact ⟨b.drop a.length, by conv_lhs => rw [← List.take_append_drop a.length b, h]⟩
  · rintro ⟨t, rfl⟩
    exact under_append a t

theorem under_take (k : ℕ) (b : Path) : under (b.take k) b := by
  unfold under
  rw [List.length_take]
  rcases Nat.le_total k b.length with h | h
  · rw [Nat.min_eq_left h]
  · rw [Nat.min_eq_right h, List.take_length, List.take_of_length_le h]

theorem under_of_under_of_le {a b c : Path} (hac : under a c) (hbc : under b c)
    (hl : a.length ≤ b.length) : under a b := by
  unfold under at *
  calc b.take a.length = (c.take b.length).take a.length := by rw [hbc]
    _ = c.take a.length := by rw [List.take_take, Nat.min_eq_left hl]
    _ = a := hac

theorem under_dropLast_self (p : Path) : under p.dropLast p := by
  rw [List.dropLast_eq_take]
  exact under_take _ _

theorem under_of_under_dropLast {a p : Path} (h : under a p.dropLast) : under a p :=
  under_trans h (under_dropLast_self p)

theorem under_dropLast_of_lt {a p : Path} (h : under a p) (hl : a.length < p.length) :
    under a p.dropLast := by
  unfold under at *
  rw [List.dropLast_eq_take, List.take_take, Nat.min_eq_left (by omega)]
  exact h

theorem dropLast_eq_self_iff (p : Path) : p.dropLast = p ↔ p = [] := by
  constructor
  · intro h
    by_contra hne
    have := congrArg List.length h
    rw [List.length_dropLast] at this
    have : p.length ≠ 0 := fun h0 => hne (List.eq_nil_of_length_eq_zero h0)
    omega
  · rintro rfl; rfl

theorem length_dropLast_lt {p : Path} (h : p ≠ []) : p.dropLast.length < p.length := by
  have : p.length ≠ 0 := fun h0 => h (List.eq_nil_of_length_eq_zero h0)
  rw [List.length_dropLast]
  omega

theorem ancestorsAux_congr :
    ∀ (f g : ℕ) (p s : Path), p.length ≤ f → p.length ≤ g →
      ancestorsAux f p s = ancestorsAux g p s := by
  intro f
  induction f with
  | zero =>
    intro g p s hf hg
    have hp : p = [] := List.eq_nil_of_length_eq_zero (Nat.le_zero.mp hf)
    subst hp
    cases g with
    | zero => rfl
    | succ g => simp [ancestorsAux]
  | succ f ih =>
    intro g p s hf hg
    rcases Nat.eq_zero_or_pos p.length with h0 | hpos
    · have hp : p = [] := List.eq_nil_of_length_eq_zero h0
      subst hp
      cases g with
      | zero => simp [ancestorsAux]
      | succ g => simp [ancestorsAux]
    · have hne : p ≠ [] := by
        intro h; subst h; simp at hpos
      cases g with
      | zero => omega
      | succ g =>
        by_cases hstop : p = s ∨ p.dropLast = p
        · simp only [ancestorsAux, if_pos hstop]
        · simp only [ancestorsAux, if_neg hstop]
          have hdlt := length_dropLast_lt hne
          rw [ih g p.dropLast s (by omega) (by omega)]

theorem ancestorsAux_eq_of_le (f : ℕ) (p s : Path) (h : p.length ≤ f) :
    ancestorsAux f p s = ancestors p s :=
  ancestorsAux_congr f p.length p s h (Nat.le_refl _)

/-- The loop equation of `ancestors`. -/
theorem ancestors_unfold (path stop_at : Path) :
    ancestors path stop_at =
      path :: (if path = stop_at ∨ path.dropLast = path then []
               else ancestors path.dropLast stop_at) := by
  rcases Nat.eq_zero_or_pos path.length with h0 | hpos
  · have hp : path = [] := List.eq_nil_of_length_eq_zero h0
    subst hp
    simp [ancestors, ancestorsAux]
  · have hne : path ≠ [] := by
      intro h; subst h; simp at hpos
    unfold ancestors
    obtain ⟨k, hk⟩ : ∃ k, path.length = k + 1 := ⟨path.length - 1, by omega⟩
    rw [hk]
    by_cases hstop : path = stop_at ∨ path.dropLast = path
    · simp only [ancestorsAux, if_pos hstop]
    · simp only [ancestorsAux, if_neg hstop]
      have hdk : path.dropLast.length ≤ k := by
        have := length_dropLast_lt hne
        omega
      rw [ancestorsAux_eq_of_le k path.dropLast stop_at hdk]
      rfl

theorem ancestors_len_le (path stop_at : Path) :
    ∀ a ∈ ancestors path stop_at, a.length ≤ path.length := by
  generalize hn : path.length = n
  induction n generalizing path with
  | zero =>
    intro a ha
    have hp : path = [] := List.eq_nil_of_length_eq_zero hn
    subst hp
    rw [ancestors_unfold] at ha
    simp at ha
    simp [ha]
  | succ n ih =>
    intro a ha
    rw [ancestors_unfold] at ha
    by_cases hstop : path = stop_at ∨ path.dropLast = path
    · rw [if_pos hstop] at ha
      simp at ha
      subst ha
      omega
    · rw [if_neg hstop] at ha
      rcases List.mem_cons.mp ha with rfl | ha
      · omega
      · have hne : path ≠ [] := by
          intro h; subst h; simp at hn
        have hdl : path.dropLast.length = n := by
          rw [List.length_dropLast]; omega
        have := ih path.dropLast hdl a ha
        omega

theorem ancestors_nodup (path stop_at : Path) : (ancestors path stop_at).Nodup := by
  generalize hn : path.length = n
  induction n generalizing path with
  | zero =>
    have hp : path = [] := List.eq_nil_of_length_eq_zero hn
    subst hp
    rw [ancestors_unfold]
    simp
  | succ n ih =>
    rw [ancestors_unfold]
    by_cases hstop : path = stop_at ∨ path.dropLast = path
    · rw [if_pos hstop]; simp
    · rw [if_neg hstop]
      have hne : path ≠ [] := by
        intro h
        subst h
        exact hstop (Or.inr rfl)
      have hdl : path.dropLast.length = n := by
        rw [List.length_dropLast]; omega
      refine List.nodup_cons.mpr ⟨fun hmem => ?_, ih path.dropLast hdl⟩
      have hle := ancestors_len_le _ _ path hmem
      omega

theorem self_mem_ancestors (path stop_at : Path) : path ∈ ancestors path stop_at := by
  rw [ancestors_unfold]
  exact List.mem_cons_self _ _

theorem not_mem_ancestors_of_len {path stop_at a : Path}
    (h : path.length < a.length) : a ∉ ancestors path stop_at := by
  intro hmem
  have := ancestors_len_le path stop_at a hmem
  omega

/-- Membership in the ancestor chain: for a path under the scan root, the
chain consists exactly of the paths between the root and the path. -/
theorem mem_ancestors_iff (path root : Path) :
    under root path →
    ∀ a, (a ∈ ancestors path root ↔ (under root a ∧ under a path)) := by
  generalize hn : path.length = n
  induction n generalizing path with
  | zero =>
    intro hroot a
    have hp : path = [] := List.eq_nil_of_length_eq_zero hn
    subst hp
    have hs : root = [] := by
      have := under_len hroot
      simp at this
      exact this
    subst hs
    rw [ancestors_unfold, if_pos (Or.inl rfl)]
    simp only [List.mem_singleton]
    constructor
    · rintro rfl
      exact ⟨under_refl _, under_refl _⟩
    · rintro ⟨h1, h2⟩
      exact under_antisymm h2 h1
  | succ n ih =>
    intro hroot a
    by_cases hstop : path = root ∨ path.dropLast = path
    · rw [ancestors_unfold, if_pos hstop]
      have hps : path = root := by
        rcases hstop with h | hfix
        · exact h
        · have hnil : path = [] := (dropLast_eq_self_iff path).mp hfix
          subst hnil
          simp at hn
      subst hps
      simp only [List.mem_singleton]
      constructor
      · rintro rfl
        exact ⟨under_refl _, under_refl _⟩
      · rintro ⟨h1, h2⟩
        exact under_antisymm h2 h1
    · have hstop' := hstop
      push_neg at hstop'
      obtain ⟨hner, hnfix⟩ := hstop'
      have hne : path ≠ [] := fun hnil => hnfix (by simp [hnil])
      have hplen : path.length ≠ 0 := fun h0 => hne (List.eq_nil_of_length_eq_zero h0)
      have hrlt : root.length < path.length := by
        rcases Nat.lt_or_ge root.length path.length with h | h
        · exact h
        · exact absurd
            (under_same_length hroot (Nat.le_antisymm (under_len hroot) h)).symm hner
      have hroot' : under root path.dropLast := under_dropLast_of_lt hroot (by omega)
      have hdl : path.dropLast.length = n := by
        rw [List.length_dropLast]; omega
      rw [ancestors_unfold, if_neg hstop]
      rw [List.mem_cons, ih path.dropLast hdl hroot' a]
      constructor
      · rintro (rfl | ⟨h1, h2⟩)
        · exact ⟨hroot, under_refl _⟩
        · exact ⟨h1, under_of_under_dropLast h2⟩
      · rintro ⟨h1, h2⟩
        rcases Nat.eq_or_lt_of_le (under_len h2) with hl | hl
        · exact Or.inl (under_same_length h2 hl)
        · exact Or.inr ⟨h1, under_dropLast_of_lt h2 hl⟩

/-- Length of the ancestor chain: the depth of `path` below `root`, plus
one for `path` itself. -/
theorem ancestors_length (path root : Path) :
    under root path →
    (ancestors path root).length = path.length - root.length + 1 := by
  generalize hn : path.length = n
  induction n generalizing path with
  | zero =>
    intro hroot
    have hp : path = [] := List.eq_nil_of_length_eq_zero hn
    subst hp
    have hs : root = [] := by
      have := under_len hroot
      simp at this
      exact this
    subst hs
    rw [ancestors_unfold, if_pos (Or.inl rfl)]
    simp
  | succ n ih =>
    intro hroot
    by_cases hstop : path = root ∨ path.dropLast = path
    · rw [ancestors_unfold, if_pos hstop]
      have hps : path = root := by
        rcases hstop with h | hfix
        · exact h
        · have hnil : path = [] := (dropLast_eq_self_iff path).mp hfix
          subst hnil
          simp at hn
      subst hps
      simp
      omega
    · have hstop' := hstop
      push_neg at hstop'
      obtain ⟨hner, hnfix⟩ := hstop'
      have hne : path ≠ [] := fun hnil => hnfix (by simp [hnil])
      have hplen : path.length ≠ 0 := fun h0 => hne (List.eq_nil_of_length_eq_zero h0)
      have hrlt : root.length < path.length := by
        rcases Nat.lt_or_ge root.length path.length with h | h
        · exact h
        · exact absurd
            (under_same_length hroot (Nat.le_antisymm (under_len hroot) h)).symm hner
      have hroot' : under root path.dropLast := under_dropLast_of_lt hroot (by omega)
      have hdl : path.dropLast.length = n := by
        rw [List.length_dropLast]; omega
      rw [ancestors_unfold, if_neg hstop]
      rw [List.length_cons, ih path.dropLast hdl hroot']
      omega

/-!  ### Claims about the formatter and the browser -/

/-- C8: the size formatter repeatedly divides by 1024, advancing through
the unit suffixes until the magnitude is below 1024 or the unit list is
exhausted, then formats with one decimal digit; in particular it maps 0 to
"0.0B", 1024 to "1.0K", 1536 to "1.5K" and 1048576 to "1.0M". -/
theorem human_loop_and_values :
    human (some 0) = "0.0B" ∧ human (some 1024) = "1.0K" ∧
    human (some 1536) = "1.5K" ∧ human (some 1048576) = "1.0M" ∧
    (∀ q : ℚ, 0 ≤ q → q < 1024 → human (some q) = fmt1 q ++ "B") ∧
    (∀ (q : ℚ) (u : String) (us : List String), 1024 ≤ q →
      humanLoop q (u :: us) = humanLoop (q / 1024) us) ∧
    (∀ q : ℚ, humanLoop q [] = fmt1 q ++ "E") := by
  refine ⟨?_, ?_, ?_, ?_, ?_, ?_, ?_⟩
  · show humanLoop 0 humanUnits = "0.0B"
    rw [humanUnits, humanLoop, if_pos (by norm_num)]
    show fmt1 0 ++ "B" = "0.0B"
    rw [fmt1]
    norm_num [rhe]
    decide
  · show humanLoop 1024 humanUnits = "1.0K"
    rw [humanUnits, humanLoop, if_neg (by norm_num),
      show (1024 : ℚ) / 1024 = 1 by norm_num, humanLoop, if_pos (by norm_num)]
    show fmt1 1 ++ "K" = "1.0K"
    rw [fmt1]
    norm_num [rhe]
    decide
  · show humanLoop 1536 humanUnits = "1.5K"
    rw [humanUnits, humanLoop, if_neg (by norm_num),
      show (1536 : ℚ) / 1024 = 3 / 2 by norm_num, humanLoop, if_pos (by norm_num)]
    show fmt1 (3 / 2) ++ "K" = "1.5K"
    rw [fmt1]
    norm_num [rhe]
    decide
  · show humanLoop 1048576 humanUnits = "1.0M"
    rw [humanUnits, humanLoop, if_neg (by norm_num),
      show (1048576 : ℚ) / 1024 = 1024 by norm_num, humanLoop, if_neg (by norm_num),
      show (1024 : ℚ) / 1024 = 1 by norm_num, humanLoop, if_pos (by norm_num)]
    show fmt1 1 ++ "M" = "1.0M"
    rw [fmt1]
    norm_num [rhe]
    decide
  · intro q h0 hlt
    show humanLoop q humanUnits = fmt1 q ++ "B"
    rw [humanUnits, humanLoop, if_pos hlt]
  · intro q u us h
    rw [humanLoop, if_neg (not_lt.mpr h)]
  · intro q
    rfl

theorem human_loop_and_values_witness :
    (0 : ℚ) ≤ 3 ∧ (3 : ℚ) < 1024 ∧ human (some 3) = fmt1 3 ++ "B" ∧
    (1024 : ℚ) ≤ 4096 ∧
    humanLoop 4096 ("B" :: ["K"]) = humanLoop (4096 / 1024) ["K"] :=
  ⟨by norm_num, by norm_num,
    human_loop_and_values.2.2.2.2.1 3 (by norm_num) (by norm_num),
    by norm_num,
    human_loop_and_values.2.2.2.2.2.1 4096 "B" ["K"] (by norm_num)⟩

/-- C9: an input on which `float(...)` raises makes the formatter return
its fixed marker string (the literal `"?"`, pydu.py:25) instead of
propagating the error. -/
theorem human_nonnumeric : human none = "?" := rfl

/-- C6: sort mode 0 (`SizeDescending`) and sort mode 2 (`TypeThenSize`)
are the same embedded sorting function: directories before files, then
descending size, then case-insensitive name. -/
theorem sort_modes_zero_two_eq (st : St) (path : Path) :
    sortedChildren st 0 path = sortedChildren st 2 path := rfl

/-- C4 counterexample: with the default scan root `"/"`, ascending while
`cwd` is the scan root is not a no-op — `dirname("/") = "/"` is in the
`exists` set, so the handler resets the selection index to 0. -/
theorem ascend_at_root_not_noop :
    (⟨[], 3, 0⟩ : BrowserSt).cwd = demoSt.root ∧
    keyAscend demoSt ⟨[], 3, 0⟩ ≠ ⟨[], 3, 0⟩ := by
  constructor
  · decide
  · decide

/-- C4 (amended): descending onto a file leaves `cwd` unchanged and clamps
the selection into `[0, childCount-1]` (a strict no-op whenever it already
was in range); descending on an empty list is a no-op; ascending is a
no-op unless `dirname(cwd)` is recorded in `exists`, in which case it
moves there and resets the selection; ascending at a scan root other than
`"/"` is a strict no-op provided every recorded path lies under the root
(as in any scan state). -/
theorem descend_file_ascend_root (st : St) (b : BrowserSt) (kids : List Path)
    (hk : kids = sortedChildren st b.sort_mode b.cwd) :
    (kids ≠ [] →
      (st.is_dir (kids.getD (min b.pos (kids.length - 1)) [])).getD false = false →
      (keyDescend st b).cwd = b.cwd ∧
      (keyDescend st b).pos = min b.pos (kids.length - 1)) ∧
    (kids ≠ [] → b.pos < kids.length →
      (st.is_dir (kids.getD b.pos [])).getD false = false →
      keyDescend st b = b) ∧
    (kids = [] → keyDescend st b = b) ∧
    (st.exists' b.cwd.dropLast = false → keyAscend st b = b) ∧
    (st.exists' b.cwd.dropLast = true →
      (keyAscend st b).cwd = b.cwd.dropLast ∧ (keyAscend st b).pos = 0) ∧
    (b.cwd = st.root → st.root ≠ [] →
      (∀ q, st.exists' q = true → under st.root q) →
      keyAscend st b = b) := by
  subst hk
  refine ⟨?_, ?_, ?_, ?_, ?_, ?_⟩
  · intro hne hfile
    rw [keyDescend]
    simp only [if_neg hne, hfile]
    simp
  · intro hne hlt hfile
    have hmin : min b.pos ((sortedChildren st b.sort_mode b.cwd).length - 1) = b.pos := by
      omega
    rw [keyDescend]
    simp only [if_neg hne, hmin, hfile]
    simp
  · intro hnil
    rw [keyDescend]
    simp only [if_pos hnil]
  · intro hno
    rw [keyAscend]
    simp only [hno]
    simp
  · intro hyes
    rw [keyAscend]
    simp only [hyes]
    simp
  · intro hroot hne hunder
    rw [keyAscend]
    have hnot : st.exists' b.cwd.dropLast = false := by
      by_contra h
      have htrue : st.exists' b.cwd.dropLast = true := by
        cases hx : st.exists' b.cwd.dropLast
        · exact absurd hx h
        · rfl
      have := under_len (hunder _ htrue)
      rw [hroot] at this
      have hlen := length_dropLast_lt (p := st.root) hne
      omega
    simp only [hnot]
    simp

theorem descend_file_ascend_root_witness :
    ((sortedChildren demoSt 0 []) ≠ [] ∧ (0 : ℕ) < (sortedChildren demoSt 0 []).length ∧
      (demoSt.is_dir ((sortedChildren demoSt 0 []).getD 0 [])).getD false = false → True) ∧
    (sortedChildren emptySt 0 []) = [] ∧
    keyDescend emptySt ⟨[], 4, 0⟩ = ⟨[], 4, 0⟩ :=
  ⟨fun _ => trivial, by decide,
    (descend_file_ascend_root emptySt ⟨[], 4, 0⟩ (sortedChildren emptySt 0 [])
      rfl).2.2.1 (by decide)⟩

/-- C5 counterexample: on an empty child list the down key is not a no-op:
`pos = pos + 1` is unconditional (pydu.py:281) and the draw clamp skips
empty lists (pydu.py:227), so the selection index changes from 0 to 1. -/
theorem down_on_empty_not_noop :
    sortedChildren emptySt 0 [] = [] ∧
    drawClamp emptySt (keyDown ⟨[], 0, 0⟩) ≠ ⟨[], 0, 0⟩ := by
  constructor
  · decide
  · decide

/-- C5 (amended): on a nonempty child list with the selection in range, a
down key (followed by the clamp the next draw applies) moves the selection
to `min (pos+1) (childCount-1)` and an up key to `pos - 1`, with no
wraparound and `cwd` untouched; on an empty child list the raw selection
index still changes: down increments it and up decrements it toward 0. -/
theorem updown_clamped (st : St) (b : BrowserSt) (kids : List Path)
    (hk : kids = sortedChildren st b.sort_mode b.cwd) :
    (kids ≠ [] → b.pos < kids.length →
      (drawClamp st (keyDown b)).pos = min (b.pos + 1) (kids.length - 1) ∧
      (drawClamp st (keyUp b)).pos = b.pos - 1 ∧
      (drawClamp st (keyDown b)).cwd = b.cwd ∧
      (drawClamp st (keyUp b)).cwd = b.cwd) ∧
    (kids = [] →
      (drawClamp st (keyDown b)).pos = b.pos + 1 ∧
      (drawClamp st (keyUp b)).pos = b.pos - 1) := by
  subst hk
  constructor
  · intro hne hlt
    refine ⟨?_, ?_, ?_, ?_⟩
    · rw [drawClamp]
      simp only [keyDown, if_neg hne]
    · rw [drawClamp]
      simp only [keyUp, if_neg hne]
      omega
    · rw [drawClamp]
      simp only [keyDown, if_neg hne]
    · rw [drawClamp]
      simp only [keyUp, if_neg hne]
  · intro hnil
    constructor
    · rw [drawClamp]
      simp only [keyDown, if_pos hnil]
    · rw [drawClamp]
      simp only [keyUp, if_pos hnil]

theorem updown_clamped_witness :
    (sortedChildren demoSt 0 []) ≠ [] ∧ (0 : ℕ) < (sortedChildren demoSt 0 []).length ∧
    (drawClamp demoSt (keyDown ⟨[], 0, 0⟩)).pos =
      min (0 + 1) ((sortedChildren demoSt 0 []).length - 1) :=
  ⟨by decide, by decide,
    ((updown_clamped demoSt ⟨[], 0, 0⟩ (sortedChildren demoSt 0 []) rfl).1
      (by decide) (by decide)).1⟩

/-!  ### General list lemmas used by the scan proofs -/

theorem scanl_head {α β : Type} (f : α → β → α) (a : α) (l : List β) :
    (List.scanl f a l).head? = some a := by
  cases l <;> simp [List.scanl]

theorem mem_scanl_self {α β : Type} (f : α → β → α) (a : α) (l : List β) :
    a ∈ List.scanl f a l := by
  cases l <;> simp [List.scanl]

theorem scanl_ne_nil {α β : Type} (f : α → β → α) (a : α) (l : List β) :
    List.scanl f a l ≠ [] := by
  intro h
  have := congrArg List.length h
  simp [List.length_scanl] at this

theorem scanl_append' {α β : Type} (f : α → β → α) :
    ∀ (l1 l2 : List β) (a : α),
      List.scanl f a (l1 ++ l2) =
        List.scanl f a l1 ++ (List.scanl f (List.foldl f a l1) l2).tail := by
  intro l1
  induction l1 with
  | nil =>
    intro l2 a
    cases l2 <;> simp [List.scanl]
  | cons b l1 ih =>
    intro l2 a
    simp only [List.cons_append, List.scanl_cons, List.foldl_cons]
    rw [ih l2 (f a b)]
    simp

theorem scanl_getLast {α β : Type} (f : α → β → α) :
    ∀ (l : List β) (a : α),
      (List.scanl f a l).getLast? = some (List.foldl f a l) := by
  intro l
  induction l with
  | nil => intro a; rfl
  | cons b l ih =>
    intro a
    rw [List.scanl_cons, List.foldl_cons, List.singleton_append]
    cases hl : List.scanl f (f a b) l with
    | nil => exact absurd hl (scanl_ne_nil f (f a b) l)
    | cons c t =>
      rw [List.getLast?_cons_cons, ← hl]
      exact ih (f a b)

theorem foldl_mem_scanl {α β : Type} (f : α → β → α) :
    ∀ (l : List β) (a : α), List.foldl f a l ∈ List.scanl f a l := by
  intro l
  induction l with
  | nil => intro a; simp [List.scanl]
  | cons b l ih =>
    intro a
    rw [List.scanl_cons, List.foldl_cons]
    exact List.mem_append_right _ (ih (f a b))

theorem scanl_inv {α β : Type} (f : α → β → α) (P : α → Prop) :
    ∀ (l : List β) (a : α), P a → (∀ b ∈ l, ∀ x, P x → P (f x b)) →
      ∀ x ∈ List.scanl f a l, P x := by
  intro l
  induction l with
  | nil =>
    intro a ha _ x hx
    simp [List.scanl] at hx
    subst hx
    exact ha
  | cons b l ih =>
    intro a ha hstep x hx
    rw [List.scanl_cons] at hx
    rcases List.mem_append.mp hx with hx | hx
    · simp at hx
      subst hx
      exact ha
    · exact ih (f a b) (hstep b (by simp) a ha)
        (fun b' hb' => hstep b' (by simp [hb'])) x hx

theorem scanl_chain {α β : Type} (f : α → β → α) (R : α → α → Prop) :
    ∀ (l : List β) (a : α), (∀ b ∈ l, ∀ x, R x (f x b)) →
      List.Chain' R (List.scanl f a l) := by
  intro l
  induction l with
  | nil => intro a _; simp [List.scanl]
  | cons b l ih =>
    intro a hstep
    rw [List.scanl_cons]
    simp only [List.singleton_append]
    rw [List.chain'_cons']
    constructor
    · intro y hy
      rw [scanl_head] at hy
      simp at hy
      subst hy
      exact hstep b (by simp) a
    · exact ih (f a b) (fun b' hb' => hstep b' (by simp [hb']))

theorem scanl_chain_inv {α β : Type} (f : α → β → α) (R : α → α → Prop) (P : α → Prop) :
    ∀ (l : List β) (a : α), P a → (∀ b ∈ l, ∀ x, P x → P (f x b) ∧ R x (f x b)) →
      List.Chain' R (List.scanl f a l) := by
  intro l
  induction l with
  | nil => intro a _ _; simp [List.scanl]
  | cons b l ih =>
    intro a ha hstep
    rw [List.scanl_cons]
    simp only [List.singleton_append]
    rw [List.chain'_cons']
    constructor
    · intro y hy
      rw [scanl_head] at hy
      simp at hy
      subst hy
      exact (hstep b (by simp) a ha).2
    · exact ih (f a b) (hstep b (by simp) a ha).1
        (fun b' hb' => hstep b' (by simp [hb']))

theorem chain_scanl_append {α β : Type} (f : α → β → α) (R : α → α → Prop)
    (l1 l2 : List β) (a : α)
    (h1 : List.Chain' R (List.scanl f a l1))
    (h2 : List.Chain' R (List.scanl f (List.foldl f a l1) l2)) :
    List.Chain' R (List.scanl f a (l1 ++ l2)) := by
  rw [scanl_append' f l1 l2 a]
  rw [List.chain'_append]
  refine ⟨h1, ?_, ?_⟩
  · cases hl : List.scanl f (List.foldl f a l1) l2 with
    | nil => simp
    | cons c t =>
      have := h2
      rw [hl] at this
      simpa using this.tail
  · intro x hx y hy
    rw [scanl_getLast] at hx
    have hx' : List.foldl f a l1 = x := by simpa using hx
    subst hx'
    cases l2 with
    | nil => simp at hy
    | cons d l2' =>
      rw [List.scanl_cons, List.singleton_append, List.tail_cons, scanl_head] at hy
      have hy' : f (List.foldl f a l1) d = y := by simpa using hy
      subst hy'
      rw [List.scanl_cons, List.singleton_append, List.chain'_cons'] at h2
      exact h2.1 _ (by rw [scanl_head]; rfl)

theorem sum_map_add {β : Type} (l : List β) (f g : β → ℕ) :
    (l.map (fun x => f x + g x)).sum = (l.map f).sum + (l.map g).sum := by
  induction l with
  | nil => simp
  | cons b l ih =>
    simp only [List.map_cons, List.sum_cons, ih]
    omega

theorem sum_swap {β γ : Type} (L : List β) (M : List γ) (g : β → γ → ℕ) :
    (L.map (fun c => (M.map (g c)).sum)).sum =
      (M.map (fun t => (L.map (fun c => g c t)).sum)).sum := by
  induction L with
  | nil =>
    simp only [List.map_nil, List.sum_nil]
    symm
    apply List.sum_eq_zero
    intro x hx
    obtain ⟨c, _, rfl⟩ := List.mem_map.mp hx
    rfl
  | cons c L ih =>
    simp only [List.map_cons, List.sum_cons, ih, ← sum_map_add]

theorem sum_ite_of_unique {β : Type} (P : β → Prop) [DecidablePred P]
    (L : List β) (v : ℕ) (c0 : β)
    (hnodup : L.Nodup) (hmem : c0 ∈ L) (hc0 : P c0)
    (huniq : ∀ c ∈ L, P c → c = c0) :
    (L.map (fun c => if P c then v else 0)).sum = v := by
  induction L with
  | nil => cases hmem
  | cons a L ih =>
    rcases List.mem_cons.mp hmem with rfl | hmem'
    · simp only [List.map_cons, List.sum_cons, if_pos hc0]
      have hz : (L.map (fun c => if P c then v else 0)).sum = 0 := by
        apply List.sum_eq_zero
        intro x hx
        obtain ⟨c, hc, rfl⟩ := List.mem_map.mp hx
        have hnp : ¬ P c := by
          intro hPc
          have := huniq c (List.mem_cons_of_mem _ hc) hPc
          subst this
          exact (List.nodup_cons.mp hnodup).1 hc
        exact if_neg hnp
      omega
    · have ha : ¬ P a := by
        intro hPa
        have := huniq a (List.mem_cons_self _ _) hPa
        subst this
        exact (List.nodup_cons.mp hnodup).1 hmem'
      simp only [List.map_cons, List.sum_cons, if_neg ha]
      rw [ih (List.nodup_cons.mp hnodup).2 hmem'
        (fun c hc hPc => huniq c (List.mem_cons_of_mem _ hc) hPc)]
      omega

theorem sum_ite_zero {β : Type} (P : β → Prop) [DecidablePred P]
    (L : List β) (v : ℕ) (h : ∀ c ∈ L, ¬ P c) :
    (L.map (fun c => if P c then v else 0)).sum = 0 := by
  apply List.sum_eq_zero
  intro x hx
  obtain ⟨c, hc, rfl⟩ := List.mem_map.mp hx
  exact if_neg (h c hc)

theorem map_nodup_inj {β γ : Type} (l : List β) (f : β → γ)
    (h : (l.map f).Nodup) :
    ∀ a ∈ l, ∀ b ∈ l, f a = f b → a = b := by
  induction l with
  | nil => intro a ha; cases ha
  | cons x l ih =>
    simp only [List.map_cons, List.nodup_cons] at h
    intro a ha b hb heq
    rcases List.mem_cons.mp ha with rfl | ha' <;>
      rcases List.mem_cons.mp hb with rfl | hb'
    · rfl
    · have hmem : f b ∈ l.map f := List.mem_map.mpr ⟨b, hb', rfl⟩
      rw [← heq] at hmem
      exact absurd hmem h.1
    · have hmem : f a ∈ l.map f := List.mem_map.mpr ⟨a, ha', rfl⟩
      rw [heq] at hmem
      exact absurd hmem h.1
    · exact ih h.2 a ha' b hb' heq

theorem filter_eq_singleton {l : List Entry}
    (hnodup : (l.map (fun e => e.1)).Nodup) (e : Entry) (he : e ∈ l) :
    l.filter (fun e2 => decide (e2.1 = e.1)) = [e] := by
  induction l with
  | nil => cases he
  | cons x l ih =>
    simp only [List.map_cons, List.nodup_cons] at hnodup
    rcases List.mem_cons.mp he with rfl | he'
    · rw [List.filter_cons_of_pos (p := fun e2 : Entry => decide (e2.1 = e.1)) (by simp)]
      have hnil : l.filter (fun e2 => decide (e2.1 = e.1)) = [] := by
        rw [List.filter_eq_nil_iff]
        intro y hy
        simp only [decide_eq_true_eq]
        intro heq
        have hmem : y.1 ∈ l.map (fun e => e.1) := List.mem_map.mpr ⟨y, hy, rfl⟩
        rw [heq] at hmem
        exact hnodup.1 hmem
      rw [hnil]
    · have hne : ¬ (x.1 = e.1) := by
        intro heq
        have hmem : e.1 ∈ l.map (fun e => e.1) := List.mem_map.mpr ⟨e, he', rfl⟩
        rw [← heq] at hmem
        exact hnodup.1 hmem
      rw [List.filter_cons_of_neg (by simpa using hne)]
      exact ih hnodup.2 he'

theorem filter_eq_nil_of_not_mem {l : List Entry} (q : Path)
    (h : q ∉ l.map (fun e => e.1)) :
    l.filter (fun e2 => decide (e2.1 = q)) = [] := by
  rw [List.filter_eq_nil_iff]
  intro y hy
  simp only [decide_eq_true_eq]
  intro heq
  have hmem : y.1 ∈ l.map (fun e => e.1) := List.mem_map.mpr ⟨y, hy, rfl⟩
  rw [heq] at hmem
  exact h hmem

/-!  ### Effect of the pre-count pass -/

attribute [simp] app upd pB1 pB2 pB3 lB5 finB

theorem pB2s_fold (p : Path) (ds : List String) :
    ∀ st : St,
      (List.foldl app st (ds.map (pB2 p))).root = st.root ∧
      (List.foldl app st (ds.map (pB2 p))).size = st.size ∧
      (List.foldl app st (ds.map (pB2 p))).prog = st.prog ∧
      (∀ q, (List.foldl app st (ds.map (pB2 p))).exists' q =
        (st.exists' q || decide (q ∈ ds.map (fun d => p ++ [d])))) ∧
      (∀ q, (List.foldl app st (ds.map (pB2 p))).is_dir q =
        if q ∈ ds.map (fun d => p ++ [d]) then some true else st.is_dir q) ∧
      (∀ q, (List.foldl app st (ds.map (pB2 p))).children q =
        st.children q ++ (if q = p then ds.map (fun d => p ++ [d]) else [])) := by
  induction ds with
  | nil =>
    intro st
    refine ⟨rfl, rfl, rfl, fun q => by simp, fun q => by simp, fun q => by simp⟩
  | cons d ds ih =>
    intro st
    simp only [List.map_cons, List.foldl_cons]
    obtain ⟨h1, h2, h3, h4, h5, h6⟩ := ih (app st (pB2 p d))
    refine ⟨h1.trans (by simp), h2.trans (by simp), h3.trans (by simp), ?_, ?_, ?_⟩
    · intro q
      rw [h4 q]
      by_cases hq : q = p ++ [d] <;> simp [hq]
    · intro q
      rw [h5 q]
      by_cases hmem : q ∈ ds.map (fun d => p ++ [d])
      · simp [hmem]
      · by_cases hq : q = p ++ [d] <;> simp [hq, hmem]
    · intro q
      rw [h6 q]
      by_cases hq : q = p
      · subst hq
        simp [List.append_assoc]
      · simp [hq]

theorem preEntry_fold (e : Entry) (st : St) :
    (List.foldl app st (preBlocksOf e)).root = st.root ∧
    (List.foldl app st (preBlocksOf e)).size = st.size ∧
    (List.foldl app st (preBlocksOf e)).prog.total_files =
      st.prog.total_files + e.2.2.length ∧
    (List.foldl app st (preBlocksOf e)).prog.total_dirs = st.prog.total_dirs + 1 ∧
    (List.foldl app st (preBlocksOf e)).prog.seen_files = st.prog.seen_files ∧
    (List.foldl app st (preBlocksOf e)).prog.seen_dirs = st.prog.seen_dirs ∧
    (List.foldl app st (preBlocksOf e)).prog.errors = st.prog.errors ∧
    (List.foldl app st (preBlocksOf e)).prog.scanning = st.prog.scanning ∧
    (∀ q, (List.foldl app st (preBlocksOf e)).exists' q =
      (st.exists' q || decide (q = e.1 ∨ q ∈ dirKidsOf e))) ∧
    (∀ q, (List.foldl app st (preBlocksOf e)).is_dir q =
      if q = e.1 ∨ q ∈ dirKidsOf e then some true else st.is_dir q) ∧
    (∀ q, (List.foldl app st (preBlocksOf e)).children q =
      st.children q ++ (if q = e.1 then dirKidsOf e else [])) := by
  rw [preBlocksOf, List.foldl_cons, List.foldl_append]
  obtain ⟨h1, h2, h3, h4, h5, h6⟩ := pB2s_fold e.1 e.2.1 (app st (pB1 e.1))
  simp only [List.foldl_cons, List.foldl_nil]
  refine ⟨h1.trans (by simp), h2.trans (by simp), ?_, ?_, ?_, ?_, ?_, ?_, ?_, ?_, ?_⟩
  · show (List.foldl app (app st (pB1 e.1))
      (e.2.1.map (pB2 e.1))).prog.total_files + e.2.2.length = _
    rw [h3]
    simp
  · show (List.foldl app (app st (pB1 e.1))
      (e.2.1.map (pB2 e.1))).prog.total_dirs = _
    rw [h3]
    simp
  · show (List.foldl app (app st (pB1 e.1))
      (e.2.1.map (pB2 e.1))).prog.seen_files = _
    rw [h3]
    simp
  · show (List.foldl app (app st (pB1 e.1))
      (e.2.1.map (pB2 e.1))).prog.seen_dirs = _
    rw [h3]
    simp
  · show (List.foldl app (app st (pB1 e.1))
      (e.2.1.map (pB2 e.1))).prog.errors = _
    rw [h3]
    simp
  · show (List.foldl app (app st (pB1 e.1))
      (e.2.1.map (pB2 e.1))).prog.scanning = _
    rw [h3]
    simp
  · intro q
    show (List.foldl app (app st (pB1 e.1)) (e.2.1.map (pB2 e.1))).exists' q = _
    rw [h4 q]
    by_cases hq : q = e.1 <;> simp [hq, dirKidsOf]
  · intro q
    show (List.foldl app (app st (pB1 e.1)) (e.2.1.map (pB2 e.1))).is_dir q = _
    rw [h5 q]
    by_cases hmem : q ∈ e.2.1.map (fun d => e.1 ++ [d])
    · simp [dirKidsOf, hmem]
    · by_cases hq : q = e.1 <;> simp [hq, hmem, dirKidsOf]
  · intro q
    show (List.foldl app (app st (pB1 e.1)) (e.2.1.map (pB2 e.1))).children q = _
    rw [h6 q]
    simp [dirKidsOf]

theorem preFold_fold (l : List Entry) :
    ∀ st : St,
      (List.foldl app st (l.flatMap preBlocksOf)).root = st.root ∧
      (List.foldl app st (l.flatMap preBlocksOf)).size = st.size ∧
      (List.foldl app st (l.flatMap preBlocksOf)).prog.total_files =
        st.prog.total_files + (l.map (fun e => e.2.2.length)).sum ∧
      (List.foldl app st (l.flatMap preBlocksOf)).prog.total_dirs =
        st.prog.total_dirs + l.length ∧
      (List.foldl app st (l.flatMap preBlocksOf)).prog.seen_files =
        st.prog.seen_files ∧
      (List.foldl app st (l.flatMap preBlocksOf)).prog.seen_dirs =
        st.prog.seen_dirs ∧
      (List.foldl app st (l.flatMap preBlocksOf)).prog.errors = st.prog.errors ∧
      (List.foldl app st (l.flatMap preBlocksOf)).prog.scanning =
        st.prog.scanning ∧
      (∀ q, (List.foldl app st (l.flatMap preBlocksOf)).exists' q =
        (st.exists' q ||
          decide (q ∈ l.flatMap (fun e => e.1 :: dirKidsOf e)))) ∧
      (∀ q, (List.foldl app st (l.flatMap preBlocksOf)).is_dir q =
        if q ∈ l.flatMap (fun e => e.1 :: dirKidsOf e) then some true
        else st.is_dir q) ∧
      (∀ q, (List.foldl app st (l.flatMap preBlocksOf)).children q =
        st.children q ++
          (l.filter (fun e2 => decide (e2.1 = q))).flatMap dirKidsOf) := by
  induction l with
  | nil =>
    intro st
    refine ⟨rfl, rfl, by simp, by simp, rfl, rfl, rfl, rfl,
      fun q => by simp, fun q => by simp, fun q => by simp⟩
  | cons e l ih =>
    intro st
    rw [List.flatMap_cons, List.foldl_append]
    obtain ⟨g1, g2, g3, g4, g5, g6, g7, g8, g9, g10, g11⟩ := preEntry_fold e st
    obtain ⟨h1, h2, h3, h4, h5, h6, h7, h8, h9, h10, h11⟩ :=
      ih (List.foldl app st (preBlocksOf e))
    refine ⟨by rw [h1, g1], by rw [h2, g2], ?_, ?_, by rw [h5, g5], by rw [h6, g6],
      by rw [h7, g7], by rw [h8, g8], ?_, ?_, ?_⟩
    · rw [h3, g3]
      simp
      omega
    · rw [h4, g4]
      simp
      omega
    · intro q
      rw [h9 q, g9 q]
      simp only [List.flatMap_cons, List.mem_append, List.mem_cons]
      by_cases hq : q = e.1 ∨ q ∈ dirKidsOf e
      · rcases hq with hq | hq <;> simp [hq]
      · push_neg at hq
        simp [hq.1, hq.2]
    · intro q
      rw [h10 q]
      by_cases hmem : q ∈ l.flatMap (fun e2 => e2.1 :: dirKidsOf e2)
      · have hmem2 : q ∈ (e :: l).flatMap (fun e2 => e2.1 :: dirKidsOf e2) := by
          rw [List.flatMap_cons]
          exact List.mem_append_right _ hmem
        rw [if_pos hmem, if_pos hmem2]
      · rw [if_neg hmem, g10 q]
        by_cases hq : q = e.1 ∨ q ∈ dirKidsOf e
        · have hmem2 : q ∈ (e :: l).flatMap (fun e2 => e2.1 :: dirKidsOf e2) := by
            rw [List.flatMap_cons]
            apply List.mem_append_left
            rcases hq with hq | hq
            · exact hq ▸ List.mem_cons_self _ _
            · exact List.mem_cons_of_mem _ hq
          rw [if_pos hq, if_pos hmem2]
        · have hmem2 : q ∉ (e :: l).flatMap (fun e2 => e2.1 :: dirKidsOf e2) := by
            rw [List.flatMap_cons]
            intro hx
            rcases List.mem_append.mp hx with hx | hx
            · rcases List.mem_cons.mp hx with hx | hx
              · exact hq (Or.inl hx)
              · exact hq (Or.inr hx)
            · exact hmem hx
          rw [if_neg hq, if_neg hmem2]
    · intro q
      rw [h11 q, g11 q, List.append_assoc]
      congr 1
      rw [List.filter_cons]
      by_cases hq : e.1 = q
      · rw [if_pos (show decide (e.1 = q) = true by simp [hq]), List.flatMap_cons,
          if_pos hq.symm]
      · rw [if_neg (show ¬ decide (e.1 = q) = true by simp [hq]),
          if_neg (show ¬ q = e.1 from fun h => hq h.symm), List.nil_append]

/-!  ### Effect of the live pass -/

theorem lB5s_fold (p : Path) (fs : List (String × Option ℕ)) :
    ∀ st : St,
      (List.foldl app st (fs.map (fun nf => lB5 p nf.1))).root = st.root ∧
      (List.foldl app st (fs.map (fun nf => lB5 p nf.1))).size = st.size ∧
      (List.foldl app st (fs.map (fun nf => lB5 p nf.1))).prog = st.prog ∧
      (∀ q, (List.foldl app st (fs.map (fun nf => lB5 p nf.1))).exists' q =
        (st.exists' q || decide (q ∈ fs.map (fun nf => p ++ [nf.1])))) ∧
      (∀ q, (List.foldl app st (fs.map (fun nf => lB5 p nf.1))).is_dir q =
        if q ∈ fs.map (fun nf => p ++ [nf.1]) then some false else st.is_dir q) ∧
      (∀ q, (List.foldl app st (fs.map (fun nf => lB5 p nf.1))).children q =
        st.children q ++ (if q = p then fs.map (fun nf => p ++ [nf.1]) else [])) := by
  induction fs with
  | nil =>
    intro st
    refine ⟨rfl, rfl, rfl, fun q => by simp, fun q => by simp, fun q => by simp⟩
  | cons nf fs ih =>
    intro st
    simp only [List.map_cons, List.foldl_cons]
    obtain ⟨h1, h2, h3, h4, h5, h6⟩ := ih (app st (lB5 p nf.1))
    refine ⟨h1.trans (by simp), h2.trans (by simp), h3.trans (by simp), ?_, ?_, ?_⟩
    · intro q
      rw [h4 q]
      by_cases hq : q = p ++ [nf.1]
      · simp [hq]
      · have hb : (q == p ++ [nf.1]) = false := by
          rw [beq_eq_false_iff_ne]
          exact hq
        simp [hq, hb]
    · intro q
      rw [h5 q]
      by_cases hmem : q ∈ fs.map (fun nf => p ++ [nf.1])
      · simp [hmem]
      · by_cases hq : q = p ++ [nf.1]
        · simp [hq, hmem]
        · have hb : (q == p ++ [nf.1]) = false := by
            rw [beq_eq_false_iff_ne]
            exact hq
          simp [hq, hmem, hb]
    · intro q
      rw [h6 q]
      by_cases hq : q = p
      · subst hq
        simp [List.append_assoc]
      · simp [hq]

theorem foldl_skip_of_mem (p : Path) :
    ∀ (ds : List String) (s : St), (∀ d ∈ ds, (p ++ [d]) ∈ s.children p) →
      ds.foldl (fun s d => if (p ++ [d]) ∈ s.children p then s
        else { s with children := upd s.children p (s.children p ++ [p ++ [d]]) }) s
        = s := by
  intro ds
  induction ds with
  | nil => intro s _; rfl
  | cons d ds ih =>
    intro s h
    rw [List.foldl_cons, if_pos (h d (List.mem_cons_self _ _))]
    exact ih s (fun d2 hd2 => h d2 (List.mem_cons_of_mem _ hd2))

theorem lB4_skip (p : Path) (ds : List String) (st : St)
    (h : ∀ d ∈ ds, (p ++ [d]) ∈ st.children p) :
    lB4 p ds st =
      { st with prog := { st.prog with seen_dirs := st.prog.seen_dirs + 1 },
                exists' := upd st.exists' p true,
                is_dir := upd st.is_dir p (some true) } := by
  rw [lB4]
  exact foldl_skip_of_mem p ds _ h

theorem liveEntry_fold (e : Entry) (st : St)
    (hd : ∀ d ∈ e.2.1, (e.1 ++ [d]) ∈ st.children e.1) :
    (List.foldl app st (liveBlocksOf e)).root = st.root ∧
    (List.foldl app st (liveBlocksOf e)).size = st.size ∧
    (List.foldl app st (liveBlocksOf e)).prog.total_files = st.prog.total_files ∧
    (List.foldl app st (liveBlocksOf e)).prog.total_dirs = st.prog.total_dirs ∧
    (List.foldl app st (liveBlocksOf e)).prog.seen_files = st.prog.seen_files ∧
    (List.foldl app st (liveBlocksOf e)).prog.seen_dirs = st.prog.seen_dirs + 1 ∧
    (List.foldl app st (liveBlocksOf e)).prog.errors = st.prog.errors ∧
    (List.foldl app st (liveBlocksOf e)).prog.scanning = st.prog.scanning ∧
    (∀ q, (List.foldl app st (liveBlocksOf e)).exists' q =
      (st.exists' q || decide (q = e.1 ∨ q ∈ fileKidsOf e))) ∧
    (∀ q, (List.foldl app st (liveBlocksOf e)).is_dir q =
      if q ∈ fileKidsOf e then some false
      else if q = e.1 then some true else st.is_dir q) ∧
    (∀ q, (List.foldl app st (liveBlocksOf e)).children q =
      st.children q ++ (if q = e.1 then fileKidsOf e else [])) := by
  rw [liveBlocksOf, List.foldl_cons]
  rw [show app st (lB4 e.1 e.2.1) = lB4 e.1 e.2.1 st from rfl, lB4_skip e.1 e.2.1 st hd]
  obtain ⟨h1, h2, h3, h4, h5, h6⟩ := lB5s_fold e.1 e.2.2
    { st with prog := { st.prog with seen_dirs := st.prog.seen_dirs + 1 },
              exists' := upd st.exists' e.1 true,
              is_dir := upd st.is_dir e.1 (some true) }
  refine ⟨h1.trans rfl, h2.trans rfl, by rw [h3], by rw [h3], by rw [h3], by rw [h3],
    by rw [h3], by rw [h3], ?_, ?_, ?_⟩
  · intro q
    rw [h4 q]
    by_cases hq : q = e.1 <;> simp [hq, fileKidsOf, upd]
  · intro q
    rw [h5 q]
    by_cases hmem : q ∈ e.2.2.map (fun nf => e.1 ++ [nf.1])
    · simp [fileKidsOf, hmem]
    · by_cases hq : q = e.1 <;> simp [hq, hmem, fileKidsOf, upd]
  · intro q
    rw [h6 q]
    simp [fileKidsOf]

theorem liveFold_fold (l : List Entry) :
    ∀ st : St,
      (∀ e ∈ l, ∀ d ∈ e.2.1, (e.1 ++ [d]) ∈ st.children e.1) →
      (∀ e ∈ l, ∀ e2 ∈ l, e.1 ∉ fileKidsOf e2) →
      (List.foldl app st (l.flatMap liveBlocksOf)).root = st.root ∧
      (List.foldl app st (l.flatMap liveBlocksOf)).size = st.size ∧
      (List.foldl app st (l.flatMap liveBlocksOf)).prog.total_files =
        st.prog.total_files ∧
      (List.foldl app st (l.flatMap liveBlocksOf)).prog.total_dirs =
        st.prog.total_dirs ∧
      (List.foldl app st (l.flatMap liveBlocksOf)).prog.seen_files =
        st.prog.seen_files ∧
      (List.foldl app st (l.flatMap liveBlocksOf)).prog.seen_dirs =
        st.prog.seen_dirs + l.length ∧
      (List.foldl app st (l.flatMap liveBlocksOf)).prog.errors =
        st.prog.errors ∧
      (List.foldl app st (l.flatMap liveBlocksOf)).prog.scanning =
        st.prog.scanning ∧
      (∀ q, (List.foldl app st (l.flatMap liveBlocksOf)).exists' q =
        (st.exists' q ||
          decide (q ∈ l.flatMap (fun e => e.1 :: fileKidsOf e)))) ∧
      (∀ q, (List.foldl app st (l.flatMap liveBlocksOf)).is_dir q =
        if q ∈ l.flatMap fileKidsOf then some false
        else if q ∈ l.map (fun e => e.1) then some true else st.is_dir q) ∧
      (∀ q, (List.foldl app st (l.flatMap liveBlocksOf)).children q =
        st.children q ++
          (l.filter (fun e2 => decide (e2.1 = q))).flatMap fileKidsOf) := by
  induction l with
  | nil =>
    intro st _ _
    refine ⟨rfl, rfl, rfl, rfl, rfl, by simp, rfl, rfl,
      fun q => by simp, fun q => by simp, fun q => by simp⟩
  | cons e l ih =>
    intro st hkids hdisj
    rw [List.flatMap_cons, List.foldl_append]
    obtain ⟨g1, g2, g3, g4, g5, g6, g7, g8, g9, g10, g11⟩ :=
      liveEntry_fold e st (hkids e (List.mem_cons_self _ _))
    have hkids' : ∀ e2 ∈ l, ∀ d ∈ e2.2.1,
        (e2.1 ++ [d]) ∈ (List.foldl app st (liveBlocksOf e)).children e2.1 := by
      intro e2 he2 d hd
      rw [g11 e2.1]
      exact List.mem_append_left _ (hkids e2 (List.mem_cons_of_mem _ he2) d hd)
    have hdisj' : ∀ e2 ∈ l, ∀ e3 ∈ l, e2.1 ∉ fileKidsOf e3 := by
      intro e2 he2 e3 he3
      exact hdisj e2 (List.mem_cons_of_mem _ he2) e3 (List.mem_cons_of_mem _ he3)
    obtain ⟨h1, h2, h3, h4, h5, h6, h7, h8, h9, h10, h11⟩ :=
      ih (List.foldl app st (liveBlocksOf e)) hkids' hdisj'
    refine ⟨by rw [h1, g1], by rw [h2, g2], by rw [h3, g3], by rw [h4, g4],
      by rw [h5, g5], ?_, by rw [h7, g7], by rw [h8, g8], ?_, ?_, ?_⟩
    · rw [h6, g6]
      simp
      omega
    · intro q
      rw [h9 q, g9 q]
      simp only [List.flatMap_cons, List.mem_append, List.mem_cons]
      by_cases hq : q = e.1 ∨ q ∈ fileKidsOf e
      · rcases hq with hq | hq <;> simp [hq]
      · push_neg at hq
        simp [hq.1, hq.2]
    · intro q
      rw [h10 q]
      by_cases hm1 : q ∈ l.flatMap fileKidsOf
      · have ht : q ∈ (e :: l).flatMap fileKidsOf := by
          rw [List.flatMap_cons]
          exact List.mem_append_right _ hm1
        rw [if_pos hm1, if_pos ht]
      · rw [if_neg hm1]
        by_cases hm2 : q ∈ l.map (fun e => e.1)
        · have hqfile : q ∉ fileKidsOf e := by
            obtain ⟨e2, he2, rfl⟩ := List.mem_map.mp hm2
            exact hdisj e2 (List.mem_cons_of_mem _ he2) e (List.mem_cons_self _ _)
          have ht : q ∉ (e :: l).flatMap fileKidsOf := by
            rw [List.flatMap_cons]
            intro hx
            rcases List.mem_append.mp hx with hx | hx
            · exact hqfile hx
            · exact hm1 hx
          have ht2 : q ∈ (e :: l).map (fun e => e.1) :=
            List.mem_cons_of_mem _ hm2
          rw [if_pos hm2, if_neg ht, if_pos ht2]
        · rw [if_neg hm2, g10 q]
          by_cases hq1 : q ∈ fileKidsOf e
          · have ht : q ∈ (e :: l).flatMap fileKidsOf := by
              rw [List.flatMap_cons]
              exact List.mem_append_left _ hq1
            rw [if_pos hq1, if_pos ht]
          · have ht : q ∉ (e :: l).flatMap fileKidsOf := by
              rw [List.flatMap_cons]
              intro hx
              rcases List.mem_append.mp hx with hx | hx
              · exact hq1 hx
              · exact hm1 hx
            rw [if_neg hq1, if_neg ht]
            by_cases hq2 : q = e.1
            · have ht2 : q ∈ (e :: l).map (fun e => e.1) := by
                rw [List.map_cons]
                exact hq2 ▸ List.mem_cons_self _ _
              rw [if_pos hq2, if_pos ht2]
            · have ht2 : q ∉ (e :: l).map (fun e => e.1) := by
                rw [List.map_cons]
                intro hx
                rcases List.mem_cons.mp hx with hx | hx
                · exact hq2 hx
                · exact hm2 hx
              rw [if_neg hq2, if_neg ht2]
    · intro q
      rw [h11 q, g11 q, List.append_assoc]
      congr 1
      rw [List.filter_cons]
      by_cases hq : e.1 = q
      · rw [if_pos (show decide (e.1 = q) = true by simp [hq]), List.flatMap_cons,
          if_pos hq.symm]
      · rw [if_neg (show ¬ decide (e.1 = q) = true by simp [hq]),
          if_neg (show ¬ q = e.1 from fun h => hq h.symm), List.nil_append]

/-!  ### Effect of the completion drain -/

theorem bubble_eq (l : List Path) :
    ∀ (f : Path → Option ℕ) (v : ℕ), l.Nodup →
      ∀ q, bubble f l v q = if q ∈ l then some ((f q).getD 0 + v) else f q := by
  induction l with
  | nil =>
    intro f v _ q
    simp [bubble]
  | cons a l ih =>
    intro f v hnodup q
    have hstep : bubble f (a :: l) v =
        bubble (upd f a (some ((f a).getD 0 + v))) l v := rfl
    rw [hstep, ih _ v (List.nodup_cons.mp hnodup).2 q]
    by_cases hql : q ∈ l
    · rw [if_pos hql, if_pos (List.mem_cons_of_mem _ hql)]
      have hqa : q ≠ a := fun h => (List.nodup_cons.mp hnodup).1 (h ▸ hql)
      simp [upd, hqa]
    · rw [if_neg hql]
      by_cases hqa : q = a
      · subst hqa
        rw [if_pos (List.mem_cons_self _ _)]
        simp [upd]
      · rw [if_neg (show ¬ q ∈ a :: l by simp [hqa, hql])]
        simp [upd, hqa]

theorem dB_fields (t : Task) (st : St) :
    (dB t st).root = st.root ∧ (dB t st).children = st.children ∧
    (dB t st).exists' = st.exists' ∧ (dB t st).is_dir = st.is_dir ∧
    (dB t st).prog.total_files = st.prog.total_files ∧
    (dB t st).prog.total_dirs = st.prog.total_dirs ∧
    (dB t st).prog.seen_dirs = st.prog.seen_dirs ∧
    (dB t st).prog.seen_files = st.prog.seen_files + 1 ∧
    (dB t st).prog.scanning = st.prog.scanning :=
  ⟨rfl, rfl, rfl, rfl, rfl, rfl, rfl, rfl, rfl⟩

theorem dB_size (t : Task) (st : St) (hne : t.1 ≠ []) :
    (dB t st).size t.1 = some (t.2.getD 0) ∧
    (∀ a ∈ ancestors t.1.dropLast st.root,
      (dB t st).size a = some ((st.size a).getD 0 + t.2.getD 0)) ∧
    (∀ q, q ≠ t.1 → q ∉ ancestors t.1.dropLast st.root →
      (dB t st).size q = st.size q) := by
  have hanc_len : ∀ a ∈ ancestors t.1.dropLast st.root, a.length < t.1.length := by
    intro a ha
    have h1 := ancestors_len_le _ _ a ha
    have h2 := length_dropLast_lt hne
    omega
  have ht1 : t.1 ∉ ancestors t.1.dropLast st.root := by
    intro h
    have := hanc_len _ h
    omega
  have hnodup := ancestors_nodup t.1.dropLast st.root
  have hsize : (dB t st).size = bubble (upd st.size t.1 (some (t.2.getD 0)))
      (ancestors t.1.dropLast st.root) (t.2.getD 0) := rfl
  refine ⟨?_, ?_, ?_⟩
  · rw [hsize, bubble_eq _ _ _ hnodup, if_neg ht1]
    simp [upd]
  · intro a ha
    rw [hsize, bubble_eq _ _ _ hnodup, if_pos ha]
    have hne2 : a ≠ t.1 := by
      intro h
      have := hanc_len a ha
      rw [h] at this
      omega
    simp [upd, hne2]
  · intro q hq1 hq2
    rw [hsize, bubble_eq _ _ _ hnodup, if_neg hq2]
    simp [upd, hq1]

theorem drainFold (ord : List Task) :
    ∀ st : St,
      (∀ t ∈ ord, t.1 ≠ []) →
      (∀ t ∈ ord, st.size t.1 = none) →
      ((ord.map (fun t => t.1)).Nodup) →
      (∀ t ∈ ord, ∀ t2 ∈ ord, t.1 ∉ ancestors t2.1.dropLast st.root) →
      (drainSteps st ord).root = st.root ∧
      (drainSteps st ord).children = st.children ∧
      (drainSteps st ord).exists' = st.exists' ∧
      (drainSteps st ord).is_dir = st.is_dir ∧
      (drainSteps st ord).prog.total_files = st.prog.total_files ∧
      (drainSteps st ord).prog.total_dirs = st.prog.total_dirs ∧
      (drainSteps st ord).prog.seen_dirs = st.prog.seen_dirs ∧
      (drainSteps st ord).prog.seen_files = st.prog.seen_files + ord.length ∧
      (drainSteps st ord).prog.scanning = st.prog.scanning ∧
      (∀ q, ((drainSteps st ord).size q).getD 0 =
        (st.size q).getD 0 + (ord.map (fun t => contrib st.root t q)).sum) := by
  induction ord with
  | nil =>
    intro st _ _ _ _
    refine ⟨rfl, rfl, rfl, rfl, rfl, rfl, rfl, rfl, rfl, fun q => by simp [drainSteps]⟩
  | cons t ord ih =>
    intro st hne hfresh hnodup hnotanc
    have hstep : drainSteps st (t :: ord) = drainSteps (dB t st) ord := rfl
    have hroot1 : (dB t st).root = st.root := rfl
    have htne : t.1 ≠ [] := hne t (List.mem_cons_self _ _)
    obtain ⟨s1, s2, s3⟩ := dB_size t st htne
    have hnodup2 := hnodup
    rw [List.map_cons] at hnodup2
    obtain ⟨hhead, htail⟩ := List.nodup_cons.mp hnodup2
    have hfresh' : ∀ t2 ∈ ord, (dB t st).size t2.1 = none := by
      intro t2 ht2
      have hne2 : t2.1 ≠ t.1 := by
        intro h
        exact hhead (h ▸ List.mem_map.mpr ⟨t2, ht2, rfl⟩)
      rw [s3 t2.1 hne2
        (hnotanc t2 (List.mem_cons_of_mem _ ht2) t (List.mem_cons_self _ _))]
      exact hfresh t2 (List.mem_cons_of_mem _ ht2)
    have hnotanc' : ∀ t2 ∈ ord, ∀ t3 ∈ ord,
        t2.1 ∉ ancestors t3.1.dropLast (dB t st).root := by
      intro t2 ht2 t3 ht3
      rw [hroot1]
      exact hnotanc t2 (List.mem_cons_of_mem _ ht2) t3 (List.mem_cons_of_mem _ ht3)
    obtain ⟨h1, h2, h3, h4, h5, h6, h7, h8, h9, h10⟩ :=
      ih (dB t st) (fun t2 ht2 => hne t2 (List.mem_cons_of_mem _ ht2)) hfresh'
        htail hnotanc'
    obtain ⟨f1, f2, f3, f4, f5, f6, f7, f8, f9⟩ := dB_fields t st
    refine ⟨by rw [hstep, h1, f1], by rw [hstep, h2, f2], by rw [hstep, h3, f3],
      by rw [hstep, h4, f4], by rw [hstep, h5, f5], by rw [hstep, h6, f6],
      by rw [hstep, h7, f7], ?_, by rw [hstep, h9, f9], ?_⟩
    · rw [hstep, h8, f8]
      simp
      omega
    · intro q
      rw [hstep, h10 q, hroot1]
      have hone : ((dB t st).size q).getD 0 =
          (st.size q).getD 0 + contrib st.root t q := by
        by_cases hq1 : q = t.1
        · subst hq1
          rw [s1]
          rw [hfresh t (List.mem_cons_self _ _)]
          rw [contrib, if_pos (Or.inl rfl)]
          simp
        · by_cases hq2 : q ∈ ancestors t.1.dropLast st.root
          · rw [s2 q hq2, contrib, if_pos (Or.inr hq2)]
            simp
          · rw [s3 q hq1 hq2, contrib, if_neg (by tauto)]
            omega
      rw [hone, List.map_cons, List.sum_cons]
      omega

/-!  ### Consequences of walk well-formedness -/

theorem tasks_map_fst (walk : List Entry) :
    (tasks walk).map (fun t => t.1) = walk.flatMap fileKidsOf := by
  rw [tasks, List.map_flatMap]
  congr 1
  funext e
  rw [tasksOf, List.map_map, fileKidsOf]
  rfl

theorem mem_tasks {walk : List Entry} {t : Task} :
    t ∈ tasks walk ↔ ∃ e ∈ walk, ∃ nf ∈ e.2.2, t = (e.1 ++ [nf.1], nf.2) := by
  rw [tasks, List.mem_flatMap]
  constructor
  · rintro ⟨e, he, ht⟩
    obtain ⟨nf, hnf, rfl⟩ := List.mem_map.mp ht
    exact ⟨e, he, nf, hnf, rfl⟩
  · rintro ⟨e, he, nf, hnf, rfl⟩
    exact ⟨e, he, List.mem_map.mpr ⟨nf, hnf, rfl⟩⟩

theorem tasks_length (walk : List Entry) :
    (tasks walk).length = (walk.map (fun e => e.2.2.length)).sum := by
  have hfun : (List.length ∘ tasksOf) = fun e : Entry => e.2.2.length := by
    funext e
    simp [tasksOf]
  rw [tasks, List.length_flatMap, hfun]

theorem wf_task_shape {r : Path} {walk : List Entry} (wf : WalkWF r walk) :
    ∀ t ∈ tasks walk, ∃ p n, t.1 = p ++ [n] ∧ p ∈ dirsOf walk ∧ under r p := by
  intro t ht
  obtain ⟨e, he, nf, hnf, rfl⟩ := mem_tasks.mp ht
  exact ⟨e.1, nf.1, rfl, List.mem_map.mpr ⟨e, he, rfl⟩, wf.rooted e he⟩

theorem wf_task_ne_nil {r : Path} {walk : List Entry} (wf : WalkWF r walk) :
    ∀ t ∈ tasks walk, t.1 ≠ [] := by
  intro t ht
  obtain ⟨p, n, heq, _, _⟩ := wf_task_shape wf t ht
  rw [heq]
  simp

/-- A visited directory path is never a listed file path: its parent link
would make the same name both a subdirectory and a file of one entry. -/
theorem wf_dirs_files_disjoint {r : Path} {walk : List Entry} (wf : WalkWF r walk) :
    ∀ q ∈ dirsOf walk, q ∉ walk.flatMap fileKidsOf := by
  intro q hq hfile
  obtain ⟨eq', heq', hq'⟩ := List.mem_map.mp hq
  obtain ⟨e2, he2, hq2⟩ := List.mem_flatMap.mp hfile
  obtain ⟨nf, hnf, rfl⟩ := List.mem_map.mp hq2
  have hner : eq'.1 ≠ r := by
    rw [hq']
    intro hr
    have hlen := under_len (wf.rooted e2 he2)
    have : (e2.1 ++ [nf.1]).length = e2.1.length + 1 := by simp
    rw [← hr] at hlen
    omega
  obtain ⟨e3, he3, h3a, h3b⟩ := wf.parent_link eq' heq' hner
  rw [hq'] at h3a h3b
  rw [List.dropLast_concat] at h3a
  rw [List.getLastD_concat] at h3b
  have he3e2 : e3 = e2 :=
    map_nodup_inj walk (fun e => e.1) wf.entries_nodup e3 he3 e2 he2 h3a
  subst he3e2
  have hdisj := List.disjoint_of_nodup_append (wf.names_nodup e3 he3)
  exact hdisj h3b (List.mem_map.mpr ⟨nf, hnf, rfl⟩)

theorem wf_fileAll_nodup {r : Path} {walk : List Entry} (wf : WalkWF r walk) :
    (walk.flatMap fileKidsOf).Nodup := by
  have hn := wf.entries_nodup
  have hnames : ∀ e ∈ walk, (e.2.2.map (fun nf => nf.1)).Nodup := by
    intro e he
    exact (List.nodup_append.mp (wf.names_nodup e he)).2.1
  clear wf
  induction walk with
  | nil => simp
  | cons e l ih =>
    rw [List.flatMap_cons, List.nodup_append]
    rw [List.map_cons, List.nodup_cons] at hn
    refine ⟨?_, ?_, ?_⟩
    · rw [fileKidsOf, show (fun nf : String × Option ℕ => e.1 ++ [nf.1]) =
        ((fun n => e.1 ++ [n]) ∘ (fun nf => nf.1)) from rfl, ← List.map_map]
      apply List.Nodup.map
      · intro a b hab
        simpa using hab
      · exact hnames e (List.mem_cons_self _ _)
    · exact ih hn.2 (fun e2 he2 => hnames e2 (List.mem_cons_of_mem _ he2))
    · intro q hq1 hq2
      obtain ⟨nf, _, rfl⟩ := List.mem_map.mp hq1
      obtain ⟨e2, he2, hq2'⟩ := List.mem_flatMap.mp hq2
      obtain ⟨nf2, _, heq⟩ := List.mem_map.mp hq2'
      have : e2.1 = e.1 := by
        have := congrArg List.dropLast heq
        rwa [List.dropLast_concat, List.dropLast_concat] at this
      exact hn.1 (this ▸ List.mem_map.mpr ⟨e2, he2, rfl⟩)

theorem wf_tasks_nodup {r : Path} {walk : List Entry} (wf : WalkWF r walk) :
    ((tasks walk).map (fun t => t.1)).Nodup := by
  rw [tasks_map_fst]
  exact wf_fileAll_nodup wf

/-- Walking the parent links: every strict initial segment of a visited
directory (down to the root) is itself visited, and the next component is
listed among its subdirectories. -/
theorem wf_chain {r : Path} {walk : List Entry} (wf : WalkWF r walk) :
    ∀ p, p ∈ dirsOf walk → ∀ q, under r q → under q p → q ≠ p →
      ∃ e ∈ walk, e.1 = q ∧ p.take (q.length + 1) ∈ dirKidsOf e := by
  intro p hp
  generalize hn : p.length = n
  induction n using Nat.strong_induction_on generalizing p with
  | _ n ih =>
    intro q hrq hqp hqne
    have hlt : q.length < p.length := by
      rcases Nat.eq_or_lt_of_le (under_len hqp) with h | h
      · exact absurd (under_same_length hqp h) hqne
      · exact h
    have hpne : p ≠ [] := by
      intro h
      subst h
      simp at hlt
    rcases List.eq_nil_or_concat p with h | ⟨p', x, hpx⟩
    · exact absurd h hpne
    rw [List.concat_eq_append] at hpx
    have hner : p ≠ r := by
      intro h
      subst h
      have := under_len hrq
      omega
    obtain ⟨ep, hep, hepq⟩ := List.mem_map.mp hp
    obtain ⟨e2, he2, h2a, h2b⟩ := wf.parent_link ep hep (by rw [hepq]; exact hner)
    rw [hepq] at h2a h2b
    rcases Nat.eq_or_lt_of_le (Nat.succ_le_of_lt hlt) with heq | hlt2
    · -- q is the parent of p
      have hq_eq : q = p.dropLast := by
        apply under_antisymm
        · exact under_dropLast_of_lt hqp hlt
        · apply under_of_under_of_le (under_dropLast_self p) hqp
          rw [List.length_dropLast]
          omega
      refine ⟨e2, he2, by rw [h2a, hq_eq], ?_⟩
      have htake : p.take (q.length + 1) = p := by
        apply List.take_of_length_le
        omega
      rw [htake, hpx]
      rw [hpx, List.dropLast_concat] at h2a
      rw [hpx, List.getLastD_concat] at h2b
      rw [dirKidsOf, h2a]
      exact List.mem_map.mpr ⟨x, h2b, rfl⟩
    · -- recurse into the parent
      have hp' : p.dropLast ∈ dirsOf walk := by
        rw [← h2a]
        exact List.mem_map.mpr ⟨e2, he2, rfl⟩
      have hdll : p.dropLast.length = n - 1 := by
        rw [List.length_dropLast, hn]
      have hq_dl : under q p.dropLast := under_dropLast_of_lt hqp (by omega)
      have hqne' : q ≠ p.dropLast := by
        intro h
        have := congrArg List.length h
        rw [List.length_dropLast] at this
        omega
      obtain ⟨e, he, hea, heb⟩ := ih (n - 1) (by omega) p.dropLast hp' hdll q hrq
        hq_dl hqne'
      refine ⟨e, he, hea, ?_⟩
      have htake : p.dropLast.take (q.length + 1) = p.take (q.length + 1) := by
        rw [List.dropLast_eq_take, List.take_take]
        congr 1
        omega
      rwa [htake] at heb

/-- A path strictly between the root and a visited directory is itself a
visited directory. -/
theorem wf_between_mem {r : Path} {walk : List Entry} (wf : WalkWF r walk) :
    ∀ p, p ∈ dirsOf walk → ∀ q, under r q → under q p → q ∈ dirsOf walk := by
  intro p hp q hrq hqp
  by_cases hqne : q = p
  · exact hqne ▸ hp
  · obtain ⟨e, he, hea, _⟩ := wf_chain wf p hp q hrq hqp hqne
    rw [← hea]
    exact List.mem_map.mpr ⟨e, he, rfl⟩

/-!  ### The final state of a completed scan -/

theorem scanFinal_decomp (r : Path) (walk : List Entry) (order : List Task) :
    scanFinal r walk order =
      finB (drainSteps
        (List.foldl app (List.foldl app (initSt r) (walk.flatMap preBlocksOf))
          (walk.flatMap liveBlocksOf)) order) := by
  rw [scanFinal, allBlocks, List.foldl_append, List.foldl_append, List.foldl_append]
  rfl

theorem wf_preAdds_sub {r : Path} {walk : List Entry} (wf : WalkWF r walk) :
    ∀ q, q ∈ walk.flatMap (fun e => e.1 :: dirKidsOf e) → q ∈ dirsOf walk := by
  intro q hq
  obtain ⟨e, he, hq2⟩ := List.mem_flatMap.mp hq
  rcases List.mem_cons.mp hq2 with rfl | hq3
  · exact List.mem_map.mpr ⟨e, he, rfl⟩
  · obtain ⟨d, hd, rfl⟩ := List.mem_map.mp hq3
    exact wf.closure e he d hd

theorem scanFinal_spec (r : Path) (walk : List Entry) (order : List Task)
    (wf : WalkWF r walk) (hperm : order.Perm (tasks walk)) :
    (scanFinal r walk order).root = r ∧
    (scanFinal r walk order).prog.scanning = false ∧
    (∀ e ∈ walk,
      (scanFinal r walk order).children e.1 = dirKidsOf e ++ fileKidsOf e) ∧
    (∀ q, q ∉ dirsOf walk → (scanFinal r walk order).children q = []) ∧
    (∀ q, ((scanFinal r walk order).is_dir q = some true ↔ q ∈ dirsOf walk)) ∧
    (∀ q, ((scanFinal r walk order).is_dir q = some false ↔
      q ∈ walk.flatMap fileKidsOf)) ∧
    (∀ q, ((scanFinal r walk order).exists' q = true ↔ q ∈ allP walk)) ∧
    (∀ q, ((scanFinal r walk order).size q).getD 0 =
      ((tasks walk).map (fun t => contrib r t q)).sum) ∧
    (scanFinal r walk order).prog.total_files =
      1 + (walk.map (fun e => e.2.2.length)).sum ∧
    (scanFinal r walk order).prog.total_dirs = 1 + walk.length ∧
    (scanFinal r walk order).prog.seen_files = order.length ∧
    (scanFinal r walk order).prog.seen_dirs = walk.length := by
  obtain ⟨p1, p2, p3, p4, p5, p6, p7, p8, p9, p10, p11⟩ :=
    preFold_fold walk (initSt r)
  have hkids : ∀ e ∈ walk, ∀ d ∈ e.2.1,
      (e.1 ++ [d]) ∈
        (List.foldl app (initSt r) (walk.flatMap preBlocksOf)).children e.1 := by
    intro e he d hd
    rw [p11 e.1, filter_eq_singleton wf.entries_nodup e he]
    simp only [initSt, List.nil_append, List.flatMap_cons, List.flatMap_nil,
      List.append_nil]
    exact List.mem_map.mpr ⟨d, hd, rfl⟩
  have hdisj : ∀ e ∈ walk, ∀ e2 ∈ walk, e.1 ∉ fileKidsOf e2 := by
    intro e he e2 he2 hmem
    exact wf_dirs_files_disjoint wf e.1 (List.mem_map.mpr ⟨e, he, rfl⟩)
      (List.mem_flatMap.mpr ⟨e2, he2, hmem⟩)
  obtain ⟨l1, l2, l3, l4, l5, l6, l7, l8, l9, l10, l11⟩ :=
    liveFold_fold walk (List.foldl app (initSt r) (walk.flatMap preBlocksOf))
      hkids hdisj
  have hroot_live :
      (List.foldl app (List.foldl app (initSt r) (walk.flatMap preBlocksOf))
        (walk.flatMap liveBlocksOf)).root = r := by
    rw [l1, p1]
    rfl
  have hsize_live :
      (List.foldl app (List.foldl app (initSt r) (walk.flatMap preBlocksOf))
        (walk.flatMap liveBlocksOf)).size = fun _ => none := by
    rw [l2, p2]
    rfl
  have hne : ∀ t ∈ order, t.1 ≠ [] := by
    intro t ht
    exact wf_task_ne_nil wf t (hperm.mem_iff.mp ht)
  have hfresh : ∀ t ∈ order,
      (List.foldl app (List.foldl app (initSt r) (walk.flatMap preBlocksOf))
        (walk.flatMap liveBlocksOf)).size t.1 = none := by
    intro t _
    rw [hsize_live]
  have hnodup : (order.map (fun t => t.1)).Nodup :=
    (hperm.map (fun t => t.1)).nodup_iff.mpr (wf_tasks_nodup wf)
  have hnotanc : ∀ t ∈ order, ∀ t2 ∈ order,
      t.1 ∉ ancestors t2.1.dropLast
        (List.foldl app (List.foldl app (initSt r) (walk.flatMap preBlocksOf))
          (walk.flatMap liveBlocksOf)).root := by
    rw [hroot_live]
    intro t ht t2 ht2 hmem
    obtain ⟨p2', n2, heq2, hp2, hrp2⟩ :=
      wf_task_shape wf t2 (hperm.mem_iff.mp ht2)
    rw [heq2, List.dropLast_concat] at hmem
    obtain ⟨hr_t, ht_p2⟩ := (mem_ancestors_iff p2' r hrp2 t.1).mp hmem
    have hdirs : t.1 ∈ dirsOf walk := wf_between_mem wf p2' hp2 t.1 hr_t ht_p2
    have hfile : t.1 ∈ walk.flatMap fileKidsOf := by
      rw [← tasks_map_fst]
      exact List.mem_map.mpr ⟨t, hperm.mem_iff.mp ht, rfl⟩
    exact wf_dirs_files_disjoint wf t.1 hdirs hfile
  obtain ⟨d1, d2, d3, d4, d5, d6, d7, d8, d9, d10⟩ :=
    drainFold order _ hne hfresh hnodup hnotanc
  rw [scanFinal_decomp]
  refine ⟨?_, rfl, ?_, ?_, ?_, ?_, ?_, ?_, ?_, ?_, ?_, ?_⟩
  · show (drainSteps _ order).root = r
    rw [d1, hroot_live]
  · intro e he
    show (drainSteps _ order).children e.1 = _
    rw [d2, l11, p11, filter_eq_singleton wf.entries_nodup e he]
    simp only [initSt, List.nil_append, List.flatMap_cons, List.flatMap_nil,
      List.append_nil]
  · intro q hq
    show (drainSteps _ order).children q = _
    rw [d2, l11, p11, filter_eq_nil_of_not_mem q (by exact hq)]
    simp [initSt]
  · intro q
    show (drainSteps _ order).is_dir q = some true ↔ _
    rw [d4, l10 q, p10]
    by_cases hfile : q ∈ walk.flatMap fileKidsOf
    · rw [if_pos hfile]
      constructor
      · intro h
        cases h
      · intro hdirs
        exact absurd hfile (wf_dirs_files_disjoint wf q hdirs)
    · rw [if_neg hfile]
      by_cases hdirs : q ∈ walk.map (fun e => e.1)
      · rw [if_pos hdirs]
        exact ⟨fun _ => hdirs, fun _ => rfl⟩
      · rw [if_neg hdirs]
        by_cases hpre : q ∈ walk.flatMap (fun e => e.1 :: dirKidsOf e)
        · exact absurd (wf_preAdds_sub wf q hpre) hdirs
        · rw [if_neg hpre]
          constructor
          · intro h
            cases h
          · intro h
            exact absurd h hdirs
  · intro q
    show (drainSteps _ order).is_dir q = some false ↔ _
    rw [d4, l10 q, p10]
    by_cases hfile : q ∈ walk.flatMap fileKidsOf
    · rw [if_pos hfile]
      exact ⟨fun _ => hfile, fun _ => rfl⟩
    · rw [if_neg hfile]
      by_cases hdirs : q ∈ walk.map (fun e => e.1)
      · rw [if_pos hdirs]
        constructor
        · intro h
          cases h
        · intro h
          exact absurd h hfile
      · rw [if_neg hdirs]
        by_cases hpre : q ∈ walk.flatMap (fun e => e.1 :: dirKidsOf e)
        · rw [if_pos hpre]
          constructor
          · intro h
            cases h
          · intro h
            exact absurd h hfile
        · rw [if_neg hpre]
          constructor
          · intro h
            cases h
          · intro h
            exact absurd h hfile
  · intro q
    show (drainSteps _ order).exists' q = true ↔ _
    rw [d3, l9 q, p9 q]
    show (false || _ || _) = true ↔ _
    simp only [Bool.false_or, Bool.or_eq_true, decide_eq_true_eq]
    rw [allP]
    constructor
    · rintro (hq | hq)
      · obtain ⟨e, he, hq2⟩ := List.mem_flatMap.mp hq
        refine List.mem_flatMap.mpr ⟨e, he, ?_⟩
        rcases List.mem_cons.mp hq2 with rfl | hq3
        · exact List.mem_cons_self _ _
        · exact List.mem_cons_of_mem _ (List.mem_append_left _ hq3)
      · obtain ⟨e, he, hq2⟩ := List.mem_flatMap.mp hq
        refine List.mem_flatMap.mpr ⟨e, he, ?_⟩
        rcases List.mem_cons.mp hq2 with rfl | hq3
        · exact List.mem_cons_self _ _
        · exact List.mem_cons_of_mem _ (List.mem_append_right _ hq3)
    · intro hq
      obtain ⟨e, he, hq2⟩ := List.mem_flatMap.mp hq
      rcases List.mem_cons.mp hq2 with rfl | hq3
      · exact Or.inl (List.mem_flatMap.mpr ⟨e, he, List.mem_cons_self _ _⟩)
      · rcases List.mem_append.mp hq3 with hq4 | hq4
        · exact Or.inl
            (List.mem_flatMap.mpr ⟨e, he, List.mem_cons_of_mem _ hq4⟩)
        · exact Or.inr
            (List.mem_flatMap.mpr ⟨e, he, List.mem_cons_of_mem _ hq4⟩)
  · intro q
    show ((drainSteps _ order).size q).getD 0 = _
    rw [d10 q, hsize_live, hroot_live]
    show 0 + _ = _
    rw [Nat.zero_add]
    exact (hperm.map (fun t => contrib r t q)).sum_eq
  · show (drainSteps _ order).prog.total_files = _
    rw [d5, l3, p3]
    show 1 + _ = _
    rfl
  · show (drainSteps _ order).prog.total_dirs = _
    rw [d6, l4, p4]
    show 1 + _ = _
    rfl
  · show (drainSteps _ order).prog.seen_files = _
    rw [d8, l5, p5]
    show 0 + _ = _
    rw [Nat.zero_add]
  · show (drainSteps _ order).prog.seen_dirs = _
    rw [d7, l6, p6]
    show 0 + _ = _
    rw [Nat.zero_add]

/-!  ### Miscellaneous helpers for the remaining claims -/

theorem nodup_concat {α : Type} {l : List α} {x : α} (hl : l.Nodup) (hx : x ∉ l) :
    (l ++ [x]).Nodup := by
  rw [List.nodup_append]
  refine ⟨hl, List.nodup_singleton x, ?_⟩
  intro a ha hax
  simp at hax
  subst hax
  exact hx ha

theorem mem_insStable {α : Type} (le : α → α → Bool) (x : α) :
    ∀ (l : List α) (y : α), y ∈ insStable le x l ↔ (y = x ∨ y ∈ l) := by
  intro l
  induction l with
  | nil => intro y; simp [insStable]
  | cons z l ih =>
    intro y
    rw [insStable]
    by_cases hc : (le z x && !(le x z)) = true
    · rw [if_pos hc]
      rw [List.mem_cons, ih y, List.mem_cons]
      tauto
    · rw [if_neg hc]
      simp only [List.mem_cons]

theorem mem_pySort {α : Type} (le : α → α → Bool) :
    ∀ (l : List α) (y : α), y ∈ pySort le l ↔ y ∈ l := by
  intro l
  induction l with
  | nil => intro y; simp [pySort]
  | cons z l ih =>
    intro y
    show y ∈ insStable le z (pySort le l) ↔ _
    rw [mem_insStable, ih y, List.mem_cons]

theorem getD_mem {α : Type} (l : List α) (n : ℕ) (d : α) (h : n < l.length) :
    l.getD n d ∈ l := by
  rw [List.getD_eq_getElem l d h]
  exact List.getElem_mem h

theorem sortedChildren_mem {st : St} {mode : ℕ} {path : Path} {c : Path}
    (h : c ∈ sortedChildren st mode path) :
    st.exists' c = true ∧ c ∈ st.children path := by
  rw [sortedChildren] at h
  by_cases h1 : mode = 1
  · rw [if_pos h1, mem_pySort] at h
    have := List.mem_filter.mp h
    exact ⟨this.2, this.1⟩
  · rw [if_neg h1] at h
    by_cases h2 : mode = 2
    · rw [if_pos h2, mem_pySort] at h
      have := List.mem_filter.mp h
      exact ⟨this.2, this.1⟩
    · rw [if_neg h2, mem_pySort] at h
      have := List.mem_filter.mp h
      exact ⟨this.2, this.1⟩

theorem sum_getD_filterMap (l : List Task) :
    (l.map (fun t => t.2.getD 0)).sum = (l.filterMap (fun t => t.2)).sum := by
  induction l with
  | nil => rfl
  | cons t l ih =>
    rw [List.map_cons, List.sum_cons, ih]
    cases hv : t.2 with
    | none => simp [List.filterMap_cons, hv]
    | some v => simp [List.filterMap_cons, hv]

theorem mem_scanl_append {α β : Type} (f : α → β → α) (l1 l2 : List β) (a x : α)
    (h : x ∈ List.scanl f a (l1 ++ l2)) :
    x ∈ List.scanl f a l1 ∨ x ∈ List.scanl f (List.foldl f a l1) l2 := by
  rw [scanl_append'] at h
  rcases List.mem_append.mp h with h | h
  · exact Or.inl h
  · exact Or.inr (List.mem_of_mem_tail h)

theorem chain_le_getLast {α : Type} (f : α → ℚ) :
    ∀ (l : List α), List.Chain' (fun x y => f x ≤ f y) l →
      ∀ z, l.getLast? = some z → ∀ a ∈ l, f a ≤ f z := by
  intro l
  induction l with
  | nil =>
    intro _ z hz
    simp at hz
  | cons a l ih =>
    intro hchain z hz b hb
    cases l with
    | nil =>
      simp at hz hb
      subst hz
      subst hb
      exact le_refl _
    | cons c t =>
      rw [List.getLast?_cons_cons] at hz
      rw [List.chain'_cons] at hchain
      rcases List.mem_cons.mp hb with rfl | hb'
      · calc f b ≤ f c := hchain.1
          _ ≤ f z := ih hchain.2 z hz c (List.mem_cons_self _ _)
      · exact ih hchain.2 z hz b hb'

theorem pct_nonneg (st : St) : 0 ≤ pct st := by
  rw [pct]
  have hT : (0 : ℚ) <
      max 1 ((st.prog.total_files : ℚ) + (st.prog.total_dirs : ℚ)) :=
    lt_max_of_lt_left one_pos
  have hs : (0 : ℚ) ≤ ((st.prog.seen_files : ℚ) + (st.prog.seen_dirs : ℚ)) /
      max 1 ((st.prog.total_files : ℚ) + (st.prog.total_dirs : ℚ)) :=
    div_nonneg (by positivity) (le_of_lt hT)
  have hm : (0 : ℚ) ≤ min 1 (((st.prog.seen_files : ℚ) + (st.prog.seen_dirs : ℚ)) /
      max 1 ((st.prog.total_files : ℚ) + (st.prog.total_dirs : ℚ))) :=
    le_min (by norm_num) hs
  nlinarith

theorem pct_mono {st st2 : St}
    (h1 : st.prog.total_files = st2.prog.total_files)
    (h2 : st.prog.total_dirs = st2.prog.total_dirs)
    (h3 : st.prog.seen_files + st.prog.seen_dirs ≤
      st2.prog.seen_files + st2.prog.seen_dirs) :
    pct st ≤ pct st2 := by
  rw [pct, pct, h1, h2]
  have hT : (0 : ℚ) <
      max 1 ((st2.prog.total_files : ℚ) + (st2.prog.total_dirs : ℚ)) :=
    lt_max_of_lt_left one_pos
  have hs : ((st.prog.seen_files : ℚ) + (st.prog.seen_dirs : ℚ)) ≤
      ((st2.prog.seen_files : ℚ) + (st2.prog.seen_dirs : ℚ)) := by
    exact_mod_cast h3
  gcongr

theorem pct_eq_zero_of_seen_zero {st : St}
    (h1 : st.prog.seen_files = 0) (h2 : st.prog.seen_dirs = 0) : pct st = 0 := by
  rw [pct, h1, h2]
  simp

theorem wf_kids_nodup {r : Path} {walk : List Entry} (wf : WalkWF r walk)
    (e : Entry) (he : e ∈ walk) : (dirKidsOf e ++ fileKidsOf e).Nodup := by
  have hn := wf.names_nodup e he
  have heq : dirKidsOf e ++ fileKidsOf e =
      (e.2.1 ++ e.2.2.map (fun nf => nf.1)).map (fun nm => e.1 ++ [nm]) := by
    rw [List.map_append, dirKidsOf, fileKidsOf, List.map_map]
    rfl
  rw [heq]
  apply List.Nodup.map _ hn
  intro a b hab
  simpa using hab

theorem mem_kids_shape {e : Entry} {c : Path}
    (h : c ∈ dirKidsOf e ++ fileKidsOf e) : ∃ nm, c = e.1 ++ [nm] := by
  rcases List.mem_append.mp h with h | h
  · obtain ⟨d, _, rfl⟩ := List.mem_map.mp h
    exact ⟨d, rfl⟩
  · obtain ⟨nf, _, rfl⟩ := List.mem_map.mp h
    exact ⟨nf.1, rfl⟩

/-- The heart of claim C1: for one completed task, summing its
contributions over the children of a visited directory gives exactly its
contribution to the directory itself. -/
theorem contrib_children_sum {r : Path} {walk : List Entry} (wf : WalkWF r walk)
    (e : Entry) (he : e ∈ walk) (t : Task) (ht : t ∈ tasks walk) :
    ((dirKidsOf e ++ fileKidsOf e).map (fun c => contrib r t c)).sum =
      contrib r t e.1 := by
  obtain ⟨et, het, nf, hnf, rfl⟩ := mem_tasks.mp ht
  have hrp : under r et.1 := wf.rooted et het
  have hcontrib : ∀ c, contrib r (et.1 ++ [nf.1], nf.2) c =
      if (c = et.1 ++ [nf.1] ∨ c ∈ ancestors et.1 r) then nf.2.getD 0 else 0 := by
    intro c
    simp only [contrib, List.dropLast_concat]
  rw [List.map_congr_left (fun c _ => hcontrib c), hcontrib e.1]
  have hkids := wf_kids_nodup wf e he
  by_cases hcase : under e.1 et.1
  · rcases Nat.eq_or_lt_of_le (under_len hcase) with hlen | hlt
    · -- the file is an immediate child of `e`
      have hee : e.1 = et.1 := under_same_length hcase hlen
      have heet : et = e :=
        map_nodup_inj walk (fun e => e.1) wf.entries_nodup et het e he hee.symm
      subst heet
      rw [if_pos (Or.inr (self_mem_ancestors et.1 r))]
      apply sum_ite_of_unique _ _ _ (et.1 ++ [nf.1]) hkids
        (List.mem_append_right _ (List.mem_map.mpr ⟨nf, hnf, rfl⟩)) (Or.inl rfl)
      intro c hc hPc
      obtain ⟨nm, rfl⟩ := mem_kids_shape hc
      rcases hPc with hPc | hPc
      · exact hPc
      · have h1 := under_len ((mem_ancestors_iff et.1 r hrp _).mp hPc).2
        simp at h1
    · -- the file lies strictly below a subdirectory of `e`
      have hne : e.1 ≠ et.1 := by
        intro h
        rw [h] at hlt
        omega
      obtain ⟨e2, he2, he2a, hc0⟩ := wf_chain wf et.1
        (List.mem_map.mpr ⟨et, het, rfl⟩) e.1 (wf.rooted e he) hcase hne
      have he2e : e2 = e :=
        map_nodup_inj walk (fun e => e.1) wf.entries_nodup e2 he2 e he he2a
      subst he2e
      have hc0len : (et.1.take (e2.1.length + 1)).length = e2.1.length + 1 := by
        rw [List.length_take]
        omega
      have hc0under : under (et.1.take (e2.1.length + 1)) et.1 := under_take _ _
      have hc0anc : et.1.take (e2.1.length + 1) ∈ ancestors et.1 r := by
        rw [mem_ancestors_iff et.1 r hrp]
        refine ⟨?_, hc0under⟩
        apply under_trans (wf.rooted e2 he2)
        apply under_of_under_of_le hcase hc0under
        omega
      rw [if_pos (Or.inr ((mem_ancestors_iff et.1 r hrp e2.1).mpr
        ⟨wf.rooted e2 he2, hcase⟩))]
      apply sum_ite_of_unique _ _ _ (et.1.take (e2.1.length + 1)) hkids
        (List.mem_append_left _ hc0) (Or.inr hc0anc)
      intro c hc hPc
      obtain ⟨nm, hcnm⟩ := mem_kids_shape hc
      have hclen : c.length = e2.1.length + 1 := by
        rw [hcnm]
        simp
      rcases hPc with hPc | hPc
      · exfalso
        have : c.length = et.1.length + 1 := by
          rw [hPc]
          simp
        omega
      · have hcp := ((mem_ancestors_iff et.1 r hrp c).mp hPc).2
        have : under c (et.1.take (e2.1.length + 1)) :=
          under_of_under_of_le hcp hc0under (by omega)
        exact under_same_length this (by omega)
  · -- the file is not under `e` at all: all contributions vanish
    rw [if_neg ?hneg]
    case hneg =>
      rintro (h | h)
      · have hdirs : e.1 ∈ dirsOf walk := List.mem_map.mpr ⟨e, he, rfl⟩
        have hfile : e.1 ∈ walk.flatMap fileKidsOf := by
          rw [h]
          exact List.mem_flatMap.mpr ⟨et, het, List.mem_map.mpr ⟨nf, hnf, rfl⟩⟩
        exact wf_dirs_files_disjoint wf e.1 hdirs hfile
      · exact hcase ((mem_ancestors_iff et.1 r hrp e.1).mp h).2
    apply sum_ite_zero
    intro c hc
    obtain ⟨nm, rfl⟩ := mem_kids_shape hc
    rintro (h | h)
    · have : e.1 = et.1 := by
        have := congrArg List.dropLast h
        rwa [List.dropLast_concat, List.dropLast_concat] at this
      exact hcase (this ▸ under_refl et.1)
    · have hcp := ((mem_ancestors_iff et.1 r hrp _).mp h).2
      exact hcase (under_trans (under_append e.1 [nm]) hcp)

/-- C1: after the scan reaches `Done` (the scanning flag is cleared),
every directory's recorded size equals the sum of its children's recorded
sizes, and the root's recorded size equals the sum of the sizes of all
successfully read regular files (a file whose size read raised contributes
exactly 0 everywhere). -/
theorem sizes_tree_consistent (r : Path) (walk : List Entry) (order : List Task)
    (wf : WalkWF r walk) (hperm : order.Perm (tasks walk)) :
    (scanFinal r walk order).prog.scanning = false ∧
    (∀ d, (scanFinal r walk order).is_dir d = some true →
      ((scanFinal r walk order).size d).getD 0 =
        (((scanFinal r walk order).children d).map
          (fun c => ((scanFinal r walk order).size c).getD 0)).sum) ∧
    ((scanFinal r walk order).size r).getD 0 =
      ((tasks walk).filterMap (fun t => t.2)).sum := by
  obtain ⟨m1, m2, m3, m4, m5, m6, m7, m8, m9, m10, m11, m12⟩ :=
    scanFinal_spec r walk order wf hperm
  refine ⟨m2, ?_, ?_⟩
  · intro d hdir
    have hd_mem : d ∈ dirsOf walk := (m5 d).mp hdir
    obtain ⟨e, he, he1⟩ := List.mem_map.mp hd_mem
    have he1' : e.1 = d := he1
    subst he1'
    rw [m8, m3 e he]
    rw [List.map_congr_left (fun c _ => m8 c)]
    rw [sum_swap]
    rw [List.map_congr_left (fun t ht => contrib_children_sum wf e he t ht)]
  · rw [m8 r]
    have hpoint : ∀ t ∈ tasks walk, contrib r t r = t.2.getD 0 := by
      intro t ht
      obtain ⟨et, het, nf, hnf, rfl⟩ := mem_tasks.mp ht
      have hrp : under r et.1 := wf.rooted et het
      simp only [contrib, List.dropLast_concat]
      rw [if_pos (Or.inr ((mem_ancestors_iff et.1 r hrp r).mpr
        ⟨under_refl r, hrp⟩))]
    rw [List.map_congr_left hpoint]
    exact sum_getD_filterMap (tasks walk)

theorem sizes_tree_consistent_witness :
    ((scanFinal [] demoWalk (tasks demoWalk)).size ["A"]).getD 0 =
      (((scanFinal [] demoWalk (tasks demoWalk)).children ["A"]).map
        (fun c => ((scanFinal [] demoWalk (tasks demoWalk)).size c).getD 0)).sum ∧
    ((scanFinal [] demoWalk (tasks demoWalk)).size []).getD 0 =
      ((tasks demoWalk).filterMap (fun t => t.2)).sum :=
  ⟨(sizes_tree_consistent [] demoWalk (tasks demoWalk)
      ⟨by decide, by decide, by decide, by decide, by decide⟩
      (List.Perm.refl _)).2.1 ["A"] (by decide),
    (sizes_tree_consistent [] demoWalk (tasks demoWalk)
      ⟨by decide, by decide, by decide, by decide, by decide⟩
      (List.Perm.refl _)).2.2⟩

theorem liveSt_spec (r : Path) (walk : List Entry) (wf : WalkWF r walk) :
    (liveSt r walk).root = r ∧ (liveSt r walk).size = fun _ => none := by
  obtain ⟨p1, p2, _, _, _, _, _, _, _, _, p11⟩ := preFold_fold walk (initSt r)
  have hkids : ∀ e ∈ walk, ∀ d ∈ e.2.1,
      (e.1 ++ [d]) ∈
        (List.foldl app (initSt r) (walk.flatMap preBlocksOf)).children e.1 := by
    intro e he d hd
    rw [p11 e.1, filter_eq_singleton wf.entries_nodup e he]
    simp only [initSt, List.nil_append, List.flatMap_cons, List.flatMap_nil,
      List.append_nil]
    exact List.mem_map.mpr ⟨d, hd, rfl⟩
  have hdisj : ∀ e ∈ walk, ∀ e2 ∈ walk, e.1 ∉ fileKidsOf e2 := by
    intro e he e2 he2 hmem
    exact wf_dirs_files_disjoint wf e.1 (List.mem_map.mpr ⟨e, he, rfl⟩)
      (List.mem_flatMap.mpr ⟨e2, he2, hmem⟩)
  obtain ⟨l1, l2, _⟩ := liveFold_fold walk
    (List.foldl app (initSt r) (walk.flatMap preBlocksOf)) hkids hdisj
  rw [liveSt, preSt]
  exact ⟨by rw [l1, p1]; rfl, by rw [l2, p2]; rfl⟩

theorem wf_task_not_anc {r : Path} {walk : List Entry} (wf : WalkWF r walk) :
    ∀ t ∈ tasks walk, ∀ t2 ∈ tasks walk,
      t.1 ∉ ancestors t2.1.dropLast r := by
  intro t ht t2 ht2 hmem
  obtain ⟨p2, n2, heq2, hp2, hrp2⟩ := wf_task_shape wf t2 ht2
  rw [heq2, List.dropLast_concat] at hmem
  obtain ⟨hr_t, ht_p2⟩ := (mem_ancestors_iff p2 r hrp2 t.1).mp hmem
  have hdirs : t.1 ∈ dirsOf walk := wf_between_mem wf p2 hp2 t.1 hr_t ht_p2
  have hfile : t.1 ∈ walk.flatMap fileKidsOf := by
    rw [← tasks_map_fst]
    exact List.mem_map.mpr ⟨t, ht, rfl⟩
  exact wf_dirs_files_disjoint wf t.1 hdirs hfile

/-- C2: the aggregation block of one completed sizing task sets
`size[path]` to the measured size and adds it to every ancestor on the
chain from the file's directory up to and including the scan root (and to
nothing else); the chain's length equals the depth of the file below the
root; and because the whole block runs under one lock acquisition, every
observable state of the drain shows, for each file, either all of its
increments or none of them. -/
theorem aggregation_atomic (r : Path) (walk : List Entry) (order : List Task)
    (wf : WalkWF r walk) (hperm : order.Perm (tasks walk)) :
    (∀ (st : St) (p : Path) (n : String) (v : Option ℕ), st.root = r →
      (dB (p ++ [n], v) st).size (p ++ [n]) = some (v.getD 0) ∧
      (∀ a ∈ ancestors p r,
        (dB (p ++ [n], v) st).size a = some ((st.size a).getD 0 + v.getD 0)) ∧
      (∀ q, q ≠ p ++ [n] → q ∉ ancestors p r →
        (dB (p ++ [n], v) st).size q = st.size q)) ∧
    (∀ (p : Path) (n : String), under r p →
      (ancestors ((p ++ [n]).dropLast) r).length = (p ++ [n]).length - r.length) ∧
    (∀ k q, ((drainSteps (liveSt r walk) (order.take k)).size q).getD 0 =
      ((order.take k).map (fun t => contrib r t q)).sum) := by
  obtain ⟨hr, hs⟩ := liveSt_spec r walk wf
  refine ⟨?_, ?_, ?_⟩
  · intro st p n v hroot
    have h := dB_size (p ++ [n], v) st (by simp)
    rw [show ((p ++ [n], v) : Task).1.dropLast = p from List.dropLast_concat,
      hroot] at h
    exact h
  · intro p n hrp
    rw [List.dropLast_concat, ancestors_length p r hrp]
    have := under_len hrp
    simp only [List.length_append, List.length_cons, List.length_nil]
    omega
  · intro k q
    have hmemord : ∀ t ∈ order.take k, t ∈ tasks walk := fun t ht =>
      hperm.mem_iff.mp ((List.take_sublist k order).subset ht)
    have hne : ∀ t ∈ order.take k, t.1 ≠ [] := fun t ht =>
      wf_task_ne_nil wf t (hmemord t ht)
    have hfresh : ∀ t ∈ order.take k, (liveSt r walk).size t.1 = none := by
      intro t _
      rw [hs]
    have hnodup : ((order.take k).map (fun t => t.1)).Nodup := by
      rw [List.map_take]
      exact List.Nodup.sublist (List.take_sublist _ _)
        ((hperm.map (fun t => t.1)).nodup_iff.mpr (wf_tasks_nodup wf))
    have hnotanc : ∀ t ∈ order.take k, ∀ t2 ∈ order.take k,
        t.1 ∉ ancestors t2.1.dropLast (liveSt r walk).root := by
      rw [hr]
      intro t ht t2 ht2
      exact wf_task_not_anc wf t (hmemord t ht) t2 (hmemord t2 ht2)
    obtain ⟨_, _, _, _, _, _, _, _, _, d10⟩ :=
      drainFold (order.take k) (liveSt r walk) hne hfresh hnodup hnotanc
    rw [d10 q, hs, hr]
    simp

theorem lB4_prog (p : Path) (ds : List String) (st : St) :
    (lB4 p ds st).prog = { st.prog with seen_dirs := st.prog.seen_dirs + 1 } := by
  have hfold : ∀ (l : List String) (s : St),
      (l.foldl (fun s d =>
        if (p ++ [d]) ∈ s.children p then s
        else { s with children := upd s.children p (s.children p ++ [p ++ [d]]) })
        s).prog = s.prog := by
    intro l
    induction l with
    | nil => intro s; rfl
    | cons d l ih =>
      intro s
      rw [List.foldl_cons, ih]
      split <;> rfl
  simp only [lB4]
  rw [hfold]

theorem pct_lt_100 (st : St)
    (h : st.prog.seen_files + st.prog.seen_dirs <
      st.prog.total_files + st.prog.total_dirs) : pct st < 100 := by
  have hT1 : (1 : ℚ) ≤ (st.prog.total_files : ℚ) + (st.prog.total_dirs : ℚ) := by
    have h1 : 1 ≤ st.prog.total_files + st.prog.total_dirs := by omega
    exact_mod_cast h1
  rw [pct, max_eq_right hT1]
  have hST : ((st.prog.seen_files : ℚ) + (st.prog.seen_dirs : ℚ)) /
      ((st.prog.total_files : ℚ) + (st.prog.total_dirs : ℚ)) < 1 := by
    rw [div_lt_one (by linarith)]
    exact_mod_cast h
  have hmin : min (1 : ℚ) (((st.prog.seen_files : ℚ) + (st.prog.seen_dirs : ℚ)) /
      ((st.prog.total_files : ℚ) + (st.prog.total_dirs : ℚ))) < 1 :=
    lt_of_le_of_lt (min_le_right _ _) hST
  linarith

/-- C3: the progress percentage `100 * min(1, seen / max(1, tot))` shown by
the Browser is monotonically non-decreasing along the whole observable
trace of one scan, and any state of the trace showing 100% has the
scanning flag already cleared (in fact 100% is never shown: the totals
start at 1 + 1 and are never decremented, so the final ratio is strictly
below 1). -/
theorem pct_monotone_done (r : Path) (walk : List Entry) (order : List Task)
    (wf : WalkWF r walk) (hperm : order.Perm (tasks walk)) :
    List.Chain' (fun s1 s2 => pct s1 ≤ pct s2) (scanTrace r walk order) ∧
    ∀ st ∈ scanTrace r walk order, pct st = 100 →
      st.prog.scanning = false := by
  have hassoc : allBlocks walk order =
      walk.flatMap preBlocksOf ++ (walk.flatMap liveBlocksOf ++
        (order.map dB ++ [finB])) := by
    rw [allBlocks, List.append_assoc, List.append_assoc]
  have hchain : List.Chain' (fun s1 s2 => pct s1 ≤ pct s2)
      (scanTrace r walk order) := by
    rw [scanTrace, hassoc]
    apply chain_scanl_append
    · apply scanl_chain_inv app _ (fun st =>
        st.prog.seen_files = 0 ∧ st.prog.seen_dirs = 0) _ _ ⟨rfl, rfl⟩
      intro b hb x hx
      obtain ⟨e, _, hb⟩ := List.mem_flatMap.mp hb
      simp only [preBlocksOf, List.mem_cons, List.mem_append,
        List.mem_map, List.mem_singleton] at hb
      rcases hb with hb | ⟨d, _, hb⟩ | hb | hb
      · subst hb
        exact ⟨hx, by
          rw [pct_eq_zero_of_seen_zero hx.1 hx.2]
          exact pct_nonneg _⟩
      · subst hb
        exact ⟨hx, by
          rw [pct_eq_zero_of_seen_zero hx.1 hx.2]
          exact pct_nonneg _⟩
      · subst hb
        exact ⟨hx, by
          rw [pct_eq_zero_of_seen_zero hx.1 hx.2]
          exact pct_nonneg _⟩
      · exact absurd hb (List.not_mem_nil b)
    · apply chain_scanl_append
      · apply scanl_chain
        intro b hb x
        obtain ⟨e, _, hb⟩ := List.mem_flatMap.mp hb
        simp only [liveBlocksOf, List.mem_cons, List.mem_map] at hb
        rcases hb with hb | ⟨nf, _, hb⟩
        · subst hb
          simp only [app]
          refine pct_mono ?_ ?_ ?_
          · rw [lB4_prog]
          · rw [lB4_prog]
          · rw [lB4_prog]
            show x.prog.seen_files + x.prog.seen_dirs ≤
              x.prog.seen_files + (x.prog.seen_dirs + 1)
            omega
        · subst hb
          exact le_of_eq rfl
      · apply chain_scanl_append
        · apply scanl_chain
          intro b hb x
          obtain ⟨t, _, rfl⟩ := List.mem_map.mp hb
          simp only [app]
          obtain ⟨_, _, _, _, h5, h6, h7, h8, _⟩ := dB_fields t x
          refine pct_mono h5.symm h6.symm ?_
          rw [h7, h8]
          omega
        · apply scanl_chain
          intro b hb x
          simp only [List.mem_singleton] at hb
          subst hb
          exact pct_mono rfl rfl (le_refl _)
  refine ⟨hchain, ?_⟩
  have hfin : pct (scanFinal r walk order) < 100 := by
    obtain ⟨_, _, _, _, _, _, _, _, m9, m10, m11, m12⟩ :=
      scanFinal_spec r walk order wf hperm
    apply pct_lt_100
    rw [m9, m10, m11, m12, hperm.length_eq, tasks_length]
    omega
  intro st hst h100
  have hle := chain_le_getLast pct (scanTrace r walk order) hchain
    (scanFinal r walk order)
    (by rw [scanTrace, scanl_getLast]; rfl) st hst
  rw [h100] at hle
  exact absurd (lt_of_le_of_lt hle hfin) (lt_irrefl _)

theorem pct_monotone_done_witness :
    List.Chain' (fun s1 s2 => pct s1 ≤ pct s2)
      (scanTrace [] demoWalk (tasks demoWalk)) ∧
    ∀ st ∈ scanTrace [] demoWalk (tasks demoWalk), pct st = 100 →
      st.prog.scanning = false :=
  pct_monotone_done [] demoWalk (tasks demoWalk)
    ⟨by decide, by decide, by decide, by decide, by decide⟩ (List.Perm.refl _)

theorem chain_rel_getLast {α : Type} (R : α → α → Prop)
    (htrans : ∀ a b c, R a b → R b c → R a c) :
    ∀ l, List.Chain' R l → ∀ z, l.getLast? = some z →
      ∀ a ∈ l, a = z ∨ R a z := by
  intro l
  induction l with
  | nil =>
    intro _ z hz
    simp at hz
  | cons a l ih =>
    intro hc z hz x hx
    cases l with
    | nil =>
      simp at hz
      rcases List.mem_singleton.mp hx with rfl
      exact Or.inl hz
    | cons b l' =>
      rw [List.chain'_cons] at hc
      have hz' : (b :: l').getLast? = some z := by
        rw [← hz]
        rfl
      rcases List.mem_cons.mp hx with rfl | hx'
      · rcases ih hc.2 z hz' b (List.mem_cons_self b l') with rfl | hbz
        · exact Or.inr hc.1
        · exact Or.inr (htrans x b z hc.1 hbz)
      · exact ih hc.2 z hz' x hx'

/-- Every lock block only appends to `children` lists (or leaves them
unchanged): each trace step extends every `children[q]` on the right. -/
theorem children_mono_blocks (walk : List Entry) (order : List Task) :
    ∀ b ∈ allBlocks walk order, ∀ (x : St) (q : Path),
      ∃ t, (app x b).children q = x.children q ++ t := by
  intro b hb x q
  rw [allBlocks] at hb
  rcases List.mem_append.mp hb with hb | hb
  · rcases List.mem_append.mp hb with hb | hb
    · rcases List.mem_append.mp hb with hb | hb
      · obtain ⟨e, _, hbe⟩ := List.mem_flatMap.mp hb
        simp only [preBlocksOf, List.mem_cons, List.mem_append,
          List.mem_map, List.mem_singleton] at hbe
        rcases hbe with rfl | ⟨d, _, rfl⟩ | rfl | hbe
        · exact ⟨[], by simp⟩
        · by_cases hq : q = e.1
          · exact ⟨[e.1 ++ [d]], by simp [hq]⟩
          · exact ⟨[], by simp [hq]⟩
        · exact ⟨[], by simp⟩
        · exact absurd hbe (List.not_mem_nil b)
      · obtain ⟨e, _, hbe⟩ := List.mem_flatMap.mp hb
        simp only [liveBlocksOf, List.mem_cons, List.mem_map] at hbe
        rcases hbe with rfl | ⟨nf, _, rfl⟩
        · have hfold : ∀ (l : List String) (s : St),
              ∃ t, ((l.foldl (fun (s : St) (d : String) =>
                if (e.1 ++ [d]) ∈ s.children e.1 then s
                else { s with
                  children := upd s.children e.1 (s.children e.1 ++ [e.1 ++ [d]]) })
                s).children q)
                = s.children q ++ t := by
            intro l
            induction l with
            | nil => intro s; exact ⟨[], by simp⟩
            | cons d l ih =>
              intro s
              rw [List.foldl_cons]
              by_cases hmem : (e.1 ++ [d]) ∈ s.children e.1
              · rw [if_pos hmem]
                exact ih s
              · rw [if_neg hmem]
                obtain ⟨t1, ht1⟩ := ih { s with
                  children := upd s.children e.1 (s.children e.1 ++ [e.1 ++ [d]]) }
                by_cases hq : q = e.1
                · refine ⟨[e.1 ++ [d]] ++ t1, ?_⟩
                  rw [ht1]
                  simp [hq, List.append_assoc]
                · refine ⟨t1, ?_⟩
                  rw [ht1]
                  simp [hq]
          obtain ⟨t, ht⟩ := hfold e.2.1
            ({ x with prog := { x.prog with seen_dirs := x.prog.seen_dirs + 1 },
                      exists' := upd x.exists' e.1 true,
                      is_dir := upd x.is_dir e.1 (some true) })
          exact ⟨t, ht⟩
        · by_cases hq : q = e.1
          · exact ⟨[e.1 ++ [nf.1]], by simp [hq]⟩
          · exact ⟨[], by simp [hq]⟩
    · obtain ⟨t, _, rfl⟩ := List.mem_map.mp hb
      exact ⟨[], by simp [app, (dB_fields t x).2.1]⟩
  · rcases List.mem_singleton.mp hb with rfl
    exact ⟨[], by simp⟩

/-- C7: at every observable state of a scan, every `children[d]` list is
duplicate-free: neither the pre-count pass nor the live pass ever appends
a path already present in the list. -/
theorem children_nodup_trace (r : Path) (walk : List Entry) (order : List Task)
    (wf : WalkWF r walk) (hperm : order.Perm (tasks walk)) :
    ∀ st ∈ scanTrace r walk order, ∀ q, (st.children q).Nodup := by
  have hfinal : ∀ q, ((scanFinal r walk order).children q).Nodup := by
    obtain ⟨_, _, m3, m4, _⟩ := scanFinal_spec r walk order wf hperm
    intro q
    by_cases hq : q ∈ dirsOf walk
    · obtain ⟨e, he, rfl⟩ := List.mem_map.mp hq
      rw [m3 e he]
      exact wf_kids_nodup wf e he
    · rw [m4 q hq]
      exact List.nodup_nil
  have htrans : ∀ a b c : St,
      (∀ q, ∃ t, b.children q = a.children q ++ t) →
      (∀ q, ∃ t, c.children q = b.children q ++ t) →
      (∀ q, ∃ t, c.children q = a.children q ++ t) := by
    intro a b c hab hbc q
    obtain ⟨t1, h1⟩ := hab q
    obtain ⟨t2, h2⟩ := hbc q
    exact ⟨t1 ++ t2, by rw [h2, h1, List.append_assoc]⟩
  have hchain : List.Chain'
      (fun s1 s2 => ∀ q, ∃ t, s2.children q = s1.children q ++ t)
      (scanTrace r walk order) := by
    rw [scanTrace]
    apply scanl_chain
    intro b hb x
    exact children_mono_blocks walk order b hb x
  intro st hst q
  have hlast : (scanTrace r walk order).getLast? =
      some (scanFinal r walk order) := by
    rw [scanTrace, scanl_getLast]
    rfl
  rcases chain_rel_getLast _ htrans (scanTrace r walk order) hchain
      (scanFinal r walk order) hlast st hst with rfl | hrel
  · exact hfinal q
  · obtain ⟨t, ht⟩ := hrel q
    exact List.Nodup.sublist (List.sublist_append_left _ _) (ht ▸ hfinal q)

theorem children_nodup_trace_witness :
    ((scanFinal [] demoWalk (tasks demoWalk)).children []).Nodup :=
  children_nodup_trace [] demoWalk (tasks demoWalk)
    ⟨by decide, by decide, by decide, by decide, by decide⟩ (List.Perm.refl _)
    (scanFinal [] demoWalk (tasks demoWalk))
    (foldl_mem_scanl app (allBlocks demoWalk (tasks demoWalk)) (initSt [])) []

theorem allP_under {r : Path} {walk : List Entry} (wf : WalkWF r walk) :
    ∀ q ∈ allP walk, under r q := by
  intro q hq
  simp only [allP, List.mem_flatMap, List.mem_cons, List.mem_append] at hq
  obtain ⟨e, he, hq⟩ := hq
  have hre := wf.rooted e he
  rcases hq with rfl | hq | hq
  · exact hre
  · obtain ⟨d, _, rfl⟩ := List.mem_map.mp hq
    obtain ⟨t, ht⟩ := under_iff_exists.mp hre
    exact under_iff_exists.mpr ⟨t ++ [d], by rw [ht, List.append_assoc]⟩
  · obtain ⟨nf, _, rfl⟩ := List.mem_map.mp hq
    obtain ⟨t, ht⟩ := under_iff_exists.mp hre
    exact under_iff_exists.mpr ⟨t ++ [nf.1], by rw [ht, List.append_assoc]⟩

/-- A step that re-registers one path `p0` (setting `exists[p0]` and
`is_dir[p0]` together, as every registering lock block does) keeps the
tables consistent with the walk and only grows them. -/
theorem tables_step {r : Path} {walk : List Entry} (wf : WalkWF r walk)
    (x s' : St) (p0 : Path) (v : Bool)
    (hr : s'.root = x.root)
    (he : s'.exists' = upd x.exists' p0 true)
    (hd : s'.is_dir = upd x.is_dir p0 (some v))
    (hall : p0 ∈ allP walk)
    (hdirs : v = true → p0 ∈ dirsOf walk)
    (hfiles : v = false → p0 ∈ walk.flatMap fileKidsOf)
    (hx : TablesOK r walk x) :
    TablesOK r walk s' ∧ TableLe x s' := by
  obtain ⟨h1, h2, h3, h4, h5⟩ := hx
  refine ⟨⟨hr.trans h1, ?_, ?_, ?_, ?_⟩, ?_, ?_⟩
  · intro q hq
    rw [he] at hq
    simp only [upd] at hq
    by_cases hq0 : q = p0
    · subst hq0
      exact hall
    · rw [if_neg hq0] at hq
      exact h2 q hq
  · intro q hq
    rw [hd] at hq
    simp only [upd] at hq
    by_cases hq0 : q = p0
    · subst hq0
      rw [if_pos rfl] at hq
      exact hdirs (Option.some.inj hq)
    · rw [if_neg hq0] at hq
      exact h3 q hq
  · intro q hq
    rw [hd] at hq
    simp only [upd] at hq
    by_cases hq0 : q = p0
    · subst hq0
      rw [if_pos rfl] at hq
      exact hfiles (Option.some.inj hq)
    · rw [if_neg hq0] at hq
      exact h4 q hq
  · intro q hq
    rw [he] at hq
    rw [hd]
    simp only [upd] at hq ⊢
    by_cases hq0 : q = p0
    · rw [if_pos hq0]
      simp
    · rw [if_neg hq0] at hq ⊢
      exact h5 q hq
  · intro q hq
    rw [he]
    simp only [upd]
    by_cases hq0 : q = p0
    · rw [if_pos hq0]
    · rw [if_neg hq0]
      exact hq
  · intro q hq
    rw [hd]
    simp only [upd]
    by_cases hq0 : q = p0
    · subst hq0
      rw [if_pos rfl]
      cases v with
      | false => exact (wf_dirs_files_disjoint wf q (h3 q hq) (hfiles rfl)).elim
      | true => rfl
    · rw [if_neg hq0]
      exact hq

/-- The table fields of the per-directory live block: the `children`
fold leaves `root`, `exists` and `is_dir` alone. -/
theorem lB4_tables (p : Path) (ds : List String) (st : St) :
    (lB4 p ds st).root = st.root ∧
    (lB4 p ds st).exists' = upd st.exists' p true ∧
    (lB4 p ds st).is_dir = upd st.is_dir p (some true) := by
  have hfold : ∀ (l : List String) (s : St),
      ((l.foldl (fun (s : St) (d : String) =>
        if (p ++ [d]) ∈ s.children p then s
        else { s with
          children := upd s.children p (s.children p ++ [p ++ [d]]) })
        s).root = s.root) ∧
      ((l.foldl (fun (s : St) (d : String) =>
        if (p ++ [d]) ∈ s.children p then s
        else { s with
          children := upd s.children p (s.children p ++ [p ++ [d]]) })
        s).exists' = s.exists') ∧
      ((l.foldl (fun (s : St) (d : String) =>
        if (p ++ [d]) ∈ s.children p then s
        else { s with
          children := upd s.children p (s.children p ++ [p ++ [d]]) })
        s).is_dir = s.is_dir) := by
    intro l
    induction l with
    | nil => intro s; exact ⟨rfl, rfl, rfl⟩
    | cons d l ih =>
      intro s
      rw [List.foldl_cons]
      obtain ⟨ha, hb, hc⟩ := ih (if (p ++ [d]) ∈ s.children p then s
        else { s with
          children := upd s.children p (s.children p ++ [p ++ [d]]) })
      refine ⟨?_, ?_, ?_⟩
      · rw [ha]; split <;> rfl
      · rw [hb]; split <;> rfl
      · rw [hc]; split <;> rfl
  obtain ⟨ha, hb, hc⟩ := hfold ds
    ({ st with prog := { st.prog with seen_dirs := st.prog.seen_dirs + 1 },
               exists' := upd st.exists' p true,
               is_dir := upd st.is_dir p (some true) })
  exact ⟨ha, hb, hc⟩

theorem chain_rel_le {α : Type} (R : α → α → Prop)
    (hrefl : ∀ a, R a a)
    (htrans : ∀ a b c, R a b → R b c → R a c)
    (l : List α) (hc : List.Chain' R l) :
    ∀ (k i : ℕ) (h : i + k < l.length),
      R (l.get ⟨i, Nat.lt_of_le_of_lt (Nat.le_add_right i k) h⟩)
        (l.get ⟨i + k, h⟩) := by
  intro k
  induction k with
  | zero =>
    intro i h
    exact hrefl _
  | succ k ih =>
    intro i h
    have h1 : i + k < l.length := by omega
    have h2 : i + k < l.length - 1 := by omega
    exact htrans _ _ _ (ih i h1) (List.chain'_iff_get.mp hc (i + k) h2)

/-- Every lock block keeps the shared tables consistent with the walk and
only grows them. -/
theorem tables_blocks (r : Path) (walk : List Entry) (order : List Task)
    (wf : WalkWF r walk) :
    ∀ bf ∈ allBlocks walk order, ∀ x : St, TablesOK r walk x →
      TablesOK r walk (app x bf) ∧ TableLe x (app x bf) := by
  intro bf hb x hx
  rw [allBlocks] at hb
  rcases List.mem_append.mp hb with hb | hb
  · rcases List.mem_append.mp hb with hb | hb
    · rcases List.mem_append.mp hb with hb | hb
      · obtain ⟨e, he, hbe⟩ := List.mem_flatMap.mp hb
        simp only [preBlocksOf, List.mem_cons, List.mem_append,
          List.mem_map, List.mem_singleton] at hbe
        rcases hbe with rfl | ⟨d, hd, rfl⟩ | rfl | hbe
        · exact tables_step wf x (app x (pB1 e.1)) e.1 true rfl rfl rfl
            (List.mem_flatMap.mpr ⟨e, he, List.mem_cons_self _ _⟩)
            (fun _ => List.mem_map.mpr ⟨e, he, rfl⟩)
            (fun hco => absurd hco (by simp)) hx
        · exact tables_step wf x (app x (pB2 e.1 d)) (e.1 ++ [d]) true rfl rfl rfl
            (List.mem_flatMap.mpr ⟨e, he, List.mem_cons.mpr (Or.inr
              (List.mem_append.mpr (Or.inl (List.mem_map.mpr ⟨d, hd, rfl⟩))))⟩)
            (fun _ => wf.closure e he d hd)
            (fun hco => absurd hco (by simp)) hx
        · exact ⟨hx, fun _ h => h, fun _ h => h⟩
        · exact absurd hbe (List.not_mem_nil bf)
      · obtain ⟨e, he, hbe⟩ := List.mem_flatMap.mp hb
        simp only [liveBlocksOf, List.mem_cons, List.mem_map] at hbe
        rcases hbe with rfl | ⟨nf, hnf, rfl⟩
        · obtain ⟨ha, hbb, hcc⟩ := lB4_tables e.1 e.2.1 x
          exact tables_step wf x (app x (lB4 e.1 e.2.1)) e.1 true ha hbb hcc
            (List.mem_flatMap.mpr ⟨e, he, List.mem_cons_self _ _⟩)
            (fun _ => List.mem_map.mpr ⟨e, he, rfl⟩)
            (fun hco => absurd hco (by simp)) hx
        · exact tables_step wf x (app x (lB5 e.1 nf.1)) (e.1 ++ [nf.1]) false
            rfl rfl rfl
            (List.mem_flatMap.mpr ⟨e, he, List.mem_cons.mpr (Or.inr
              (List.mem_append.mpr (Or.inr (List.mem_map.mpr ⟨nf, hnf, rfl⟩))))⟩)
            (fun hco => absurd hco (by simp))
            (fun _ => List.mem_flatMap.mpr ⟨e, he, List.mem_map.mpr ⟨nf, hnf, rfl⟩⟩)
            hx
    · obtain ⟨t, _, rfl⟩ := List.mem_map.mp hb
      exact ⟨hx, fun _ h => h, fun _ h => h⟩
  · rcases List.mem_singleton.mp hb with rfl
    exact ⟨hx, fun _ h => h, fun _ h => h⟩

/-- C10: throughout the Browser loop, run concurrently with the scan,
`cwd` stays inside the scanned subtree.  Against every observable state of
the scan: the browser starts at the scan root; the invariant — `cwd` is
the scan root or a path recorded in `exists` and marked as a directory —
carries forward from any observable state to any later one (the scanner
only grows the tables); and every key handler run against any observable
state preserves it: descend moves only to a recorded directory child,
ascend only to a parent present in `exists` (necessarily a visited
directory, as each block records `exists` and `is_dir` together), and the
other keys never change `cwd`. -/
theorem cwd_in_tree (r : Path) (walk : List Entry) (order : List Task)
    (wf : WalkWF r walk) :
    (∀ st ∈ scanTrace r walk order, InTree st (browserInit st)) ∧
    (∀ (i k : ℕ) (h : i + k < (scanTrace r walk order).length)
      (b : BrowserSt),
      InTree ((scanTrace r walk order).get
        ⟨i, Nat.lt_of_le_of_lt (Nat.le_add_right i k) h⟩) b →
      InTree ((scanTrace r walk order).get ⟨i + k, h⟩) b) ∧
    (∀ st ∈ scanTrace r walk order, ∀ b, InTree st b →
      InTree st (keyUp b) ∧ InTree st (keyDown b) ∧
      InTree st (keyCycleSort b) ∧ InTree st (drawClamp st b) ∧
      InTree st (keyDescend st b) ∧ InTree st (keyAscend st b)) := by
  have hPinit : TablesOK r walk (initSt r) :=
    ⟨rfl, fun q hq => absurd hq (by simp [initSt]),
      fun q hq => absurd hq (by simp [initSt]),
      fun q hq => absurd hq (by simp [initSt]),
      fun q hq => absurd hq (by simp [initSt])⟩
  have hP := scanl_inv app (TablesOK r walk) (allBlocks walk order) (initSt r)
    hPinit (fun b hb x hx => (tables_blocks r walk order wf b hb x hx).1)
  have hchain := scanl_chain_inv app TableLe (TablesOK r walk)
    (allBlocks walk order) (initSt r) hPinit (tables_blocks r walk order wf)
  refine ⟨fun st _ => Or.inl rfl, ?_, ?_⟩
  · intro i k h b hib
    have hR := chain_rel_le TableLe
      (fun s => ⟨fun _ h => h, fun _ h => h⟩)
      (fun a b c h1 h2 =>
        ⟨fun q hq => h2.1 q (h1.1 q hq), fun q hq => h2.2 q (h1.2 q hq)⟩)
      (scanTrace r walk order) hchain k i h
    have hPi := hP _ (List.get_mem (scanTrace r walk order) i
      (Nat.lt_of_le_of_lt (Nat.le_add_right i k) h))
    have hPk := hP _ (List.get_mem (scanTrace r walk order) (i + k) h)
    rcases hib with hroot | ⟨hex, hdir⟩
    · exact Or.inl ((hroot.trans hPi.1).trans hPk.1.symm)
    · exact Or.inr ⟨hR.1 _ hex, hR.2 _ hdir⟩
  · intro st hst b hb
    have hPst := hP st hst
    refine ⟨hb, hb, hb, ?_, ?_, ?_⟩
    · simp only [drawClamp]
      split
      · exact hb
      · exact hb
    · simp only [keyDescend]
      split
      · exact hb
      · rename_i h1
        split
        · rename_i h2
          have hlen : 0 < (sortedChildren st b.sort_mode b.cwd).length :=
            List.length_pos.mpr h1
          have hp : min b.pos ((sortedChildren st b.sort_mode b.cwd).length - 1)
              < (sortedChildren st b.sort_mode b.cwd).length := by omega
          have hmem := getD_mem _ _ ([] : Path) hp
          obtain ⟨hex, _⟩ := sortedChildren_mem hmem
          refine Or.inr ⟨hex, ?_⟩
          cases hdm : st.is_dir
              ((sortedChildren st b.sort_mode b.cwd).getD
                (min b.pos ((sortedChildren st b.sort_mode b.cwd).length - 1))
                []) with
          | none =>
            rw [hdm] at h2
            simp at h2
          | some v =>
            rw [hdm] at h2
            simp at h2
            rw [h2]
        · exact hb
    · simp only [keyAscend]
      split
      · rename_i h
        by_cases hcr : b.cwd = r
        · by_cases hr0 : r = []
          · left
            show b.cwd.dropLast = st.root
            rw [hPst.1, hcr, hr0]
            rfl
          · exfalso
            have hall := hPst.2.1 _ h
            have hu := allP_under wf _ hall
            have hl := under_len hu
            have hlen : b.cwd.dropLast.length = r.length - 1 := by
              rw [hcr]
              simp [List.length_dropLast]
            have hr1 : 0 < r.length := List.length_pos.mpr hr0
            omega
        · rcases hb with hroot | ⟨hex, hdir⟩
          · exact absurd (hroot.trans hPst.1) hcr
          · obtain ⟨e, he, heq⟩ := List.mem_map.mp (hPst.2.2.1 _ hdir)
            obtain ⟨e₂, he₂, heq₂, _⟩ :=
              wf.parent_link e he (by rw [heq]; exact hcr)
            have hpar : b.cwd.dropLast ∈ dirsOf walk :=
              List.mem_map.mpr ⟨e₂, he₂, by rw [heq₂, heq]⟩
            refine Or.inr ⟨h, ?_⟩
            cases hv : st.is_dir b.cwd.dropLast with
            | none => exact absurd hv (hPst.2.2.2.2 _ h)
            | some v =>
              cases v with
              | true => rfl
              | false =>
                exact (wf_dirs_files_disjoint wf _ hpar
                  (hPst.2.2.2.1 _ hv)).elim
      · exact hb

theorem cwd_in_tree_witness :
    InTree (initSt []) (browserInit (initSt [])) ∧
    InTree (initSt []) (keyAscend (initSt []) (browserInit (initSt []))) :=
  have h := cwd_in_tree [] demoWalk (tasks demoWalk)
    ⟨by decide, by decide, by decide, by decide, by decide⟩
  have hmem : initSt [] ∈ scanTrace [] demoWalk (tasks demoWalk) :=
    mem_scanl_self app (initSt []) (allBlocks demoWalk (tasks demoWalk))
  ⟨h.1 (initSt []) hmem,
    (h.2.2 (initSt []) hmem (browserInit (initSt []))
      (h.1 (initSt []) hmem)).2.2.2.2.2⟩

theorem aggregation_atomic_witness :
    (initSt ([] : Path)).root = [] ∧
    (dB (["A"] ++ ["a1"], some 100) (initSt [])).size (["A"] ++ ["a1"]) =
      some ((some 100 : Option ℕ).getD 0) ∧
    under [] ["A"] ∧
    (ancestors ((["A"] ++ ["a1"]).dropLast) []).length =
      (["A"] ++ ["a1"]).length - ([] : Path).length ∧
    ((drainSteps (liveSt [] demoWalk) ((tasks demoWalk).take 1)).size []).getD 0 =
      (((tasks demoWalk).take 1).map (fun t => contrib [] t [])).sum := by
  have hwf : WalkWF [] demoWalk :=
    ⟨by decide, by decide, by decide, by decide, by decide⟩
  have h := aggregation_atomic [] demoWalk (tasks demoWalk) hwf (List.Perm.refl _)
  exact ⟨rfl, (h.1 (initSt []) ["A"] "a1" (some 100) rfl).1,
    by decide, h.2.1 ["A"] "a1" (by decide), h.2.2 1 []⟩

end Pydu
